import Mathlib

/-! # math-interpreter: a shallow embedding of `interpreter.cpp`

The program is a line calculator.  A line is tested against five regular
expressions (`integer`, `variable`, `assignment`, `addition`, `subtraction`)
and dispatched to an evaluator; a global `map<string,int>` holds the variables.

Modelling conventions.

* `std::string` is `List Char` (one `Char` per C++ `char`).
* `std::regex` patterns are terms of `Regex`; `regex_match` (whole-string match of
  a pattern without back-references) is language membership, decided here by
  Brzozowski derivatives and proved equal to the denotation `Regex.lang`.
* `int` is `Int` together with the explicit 32-bit range; arithmetic that can
  overflow is wrapped by `wrap32` (two-s complement wrap-around).
* the global `integers` map is a `Store`, threaded explicitly through every
  function: each function returns its outcome together with the store it leaves.
* `throw` is the `Except.error` outcome; the thrown value is an `Exn`.
-/

namespace MathInterpreter

/-- The model of `std::string`. -/
abbrev Str := List Char

/-! ## Regular expressions -/

/-- Regular expressions over characters, with character classes given by a predicate. -/
inductive Regex where
  | nothing
  | eps
  | cls (p : Char → Bool)
  | alt (r s : Regex)
  | seq (r s : Regex)
  | star (r : Regex)

namespace Regex

/-- The pattern of a single literal character. -/
def chr (c : Char) : Regex := cls (fun x => x == c)

/-- The pattern `r?`. -/
def opt (r : Regex) : Regex := alt r eps

/-- The pattern `r+`. -/
def plus (r : Regex) : Regex := seq r (star r)

/-- Whether the pattern accepts the empty string. -/
def nullable : Regex → Bool
  | nothing => false
  | eps => true
  | cls _ => false
  | alt r s => r.nullable || s.nullable
  | seq r s => r.nullable && s.nullable
  | star _ => true

/-- Brzozowski derivative of a pattern by one character. -/
def deriv : Regex → Char → Regex
  | nothing, _ => nothing
  | eps, _ => nothing
  | cls p, c => if p c then eps else nothing
  | alt r s, c => alt (r.deriv c) (s.deriv c)
  | seq r s, c =>
    if r.nullable then alt (seq (r.deriv c) s) (s.deriv c) else seq (r.deriv c) s
  | star r, c => seq (r.deriv c) (star r)

/-- The set of strings a pattern denotes. -/
def lang : Regex → Language Char
  | nothing => 0
  | eps => 1
  | cls p => {w | ∃ c, p c = true ∧ w = [c]}
  | alt r s => r.lang + s.lang
  | seq r s => r.lang * s.lang
  | star r => KStar.kstar r.lang

end Regex

/-- The model of `std::regex_match(s, r)`: the whole of `s` matches `r`. -/
def regex_match : Str → Regex → Bool
  | [], r => r.nullable
  | c :: cs, r => regex_match cs (r.deriv c)

/-! ## The patterns of the program (lines 8-25) -/

/-- Character class `[0-9]`. -/
def isDigit (c : Char) : Bool := decide ('0' ≤ c) && decide (c ≤ '9')

/-- Character class `[a-zA-Z]`. -/
def isAlpha (c : Char) : Bool :=
  (decide ('a' ≤ c) && decide (c ≤ 'z')) || (decide ('A' ≤ c) && decide (c ≤ 'Z'))

/-- Character class `[a-zA-Z0-9_]`. -/
def isWord (c : Char) : Bool :=
  (decide ('a' ≤ c) && decide (c ≤ 'z')) || (decide ('A' ≤ c) && decide (c ≤ 'Z'))
    || (decide ('0' ≤ c) && decide (c ≤ '9')) || c == '_'

/-- The ECMAScript wildcard `.` on `char`: any character but a line terminator. -/
def isDot (c : Char) : Bool := c != '\n' && c != '\r'

/-- Pattern `(-?[0-9]+)`. -/
def int_ : Regex := .seq (.opt (.chr '-')) (.plus (.cls isDigit))

/-- Pattern `([a-zA-Z]+[a-zA-Z0-9_]*)`. -/
def var_ : Regex := .seq (.plus (.cls isAlpha)) (.star (.cls isWord))

/-- Pattern `(int_|var_)`. -/
def iv : Regex := Regex.alt int_ var_

/-- Pattern `((iv\+)+iv)`. -/
def addition_ : Regex := .seq (.plus (.seq iv (.chr '+'))) iv

/-- Pattern `((iv-)+iv)`. -/
def subtraction_ : Regex := .seq (.plus (.seq iv (.chr '-'))) iv

/-- Pattern `((addition_)|(subtraction_))+`. -/
def a_or_s : Regex := .plus (.alt addition_ subtraction_)

/-- The regex object `integer(int_)`. -/
def integer : Regex := int_

/-- The regex object `variable(var_)`. -/
def variable_rx : Regex := var_

/-- The regex object `assignment(var_+"=.+")`. -/
def assignment : Regex := .seq var_ (.seq (.chr '=') (.plus (.cls isDot)))

/-- The regex object `addition(addition_)`. -/
def addition : Regex := addition_

/-- The regex object `subtraction(subtraction_)`. -/
def subtraction : Regex := subtraction_

/-- The regex object `add_or_sub(a_or_s)`. -/
def add_or_sub : Regex := a_or_s

/-! ## Machine integers and `std::stoi` -/

/-- Smallest value of a 32-bit `int`. -/
def INT_MIN : Int := -2147483648

/-- Largest value of a 32-bit `int`. -/
def INT_MAX : Int := 2147483647

/-- The value is representable in a 32-bit signed `int`. -/
abbrev inInt32 (x : Int) : Prop := -2147483648 ≤ x ∧ x ≤ 2147483647

/-- Reduction of a mathematical integer to the 32-bit signed range (wrap-around). -/
def wrap32 (x : Int) : Int := (x + 2147483648) % 4294967296 - 2147483648

/-- What the program can throw: a `std::string` message, or one of the two
exceptions of `std::stoi`. -/
inductive Exn where
  | str (msg : Str)
  | out_of_range
  | invalid_argument
  deriving DecidableEq, Repr

deriving instance DecidableEq for Except

/-- The C function `isspace` in the default locale. -/
def isspace (c : Char) : Bool :=
  c == ' ' || c == '\t' || c == '\n' || c == '\x0b' || c == '\x0c' || c == '\r'

/-- Numeric value of a decimal digit character. -/
def digitVal (c : Char) : Nat := c.toNat - '0'.toNat

/-- The accumulation `strtol` performs over the digits, most significant first. -/
def digitsValue (ds : List Char) : Nat := ds.foldl (fun acc d => acc * 10 + digitVal d) 0

/-- The model of `std::stoi(s)` in base 10: skip leading white space, read an optional
sign and the longest run of digits; no digit is `invalid_argument`, a value outside
`int` is `out_of_range`. -/
def stoi (s : Str) : Except Exn Int :=
  let s1 := s.dropWhile isspace
  let signed : Bool × Str :=
    match s1 with
    | '-' :: t => (true, t)
    | '+' :: t => (false, t)
    | _ => (false, s1)
  let ds := signed.2.takeWhile isDigit
  if ds = [] then .error .invalid_argument
  else
    let n : Int := (digitsValue ds : Nat)
    let v : Int := if signed.1 then -n else n
    if INT_MIN ≤ v ∧ v ≤ INT_MAX then .ok v else .error .out_of_range

/-! ## The variable store (line 28) -/

/-- The model of the global `map<string,int> integers`: a finite map seen through `find`. -/
abbrev Store := Str → Option Int

/-- The store at program start. -/
def Store.empty : Store := fun _ => none

/-- The model of `integers.insert_or_assign(k, v)` and of `integers.find(k)->second = v`. -/
def Store.insert_or_assign (st : Store) (k : Str) (v : Int) : Store :=
  fun k' => if k' = k then some v else st k'

/-- Outcome of a call: the returned value or the thrown exception, and the store left. -/
abbrev Outcome (α : Type) := Except Exn α × Store

/-! ## The functions of the program -/

/-- The function `trim_whitespace` (lines 31-35).  The loop erases the character under
the iterator and then still increments the iterator, so the character that moved into
the erased position is kept without being tested.  When the erased character was the
last one, the increment takes the iterator past `s.end()` and the behaviour is
undefined: the model returns `none`. -/
def trim_whitespace : Str → Option Str
  | [] => some []
  | [c] => if isspace c then none else some [c]
  | c :: d :: rest =>
    if isspace c then (trim_whitespace rest).map (fun t => d :: t)
    else (trim_whitespace (d :: rest)).map (fun t => c :: t)

/-- The function `vector_int_sum` (lines 38-43). -/
def vector_int_sum (v : List Int) : Int :=
  v.foldl (fun sum i => wrap32 (sum + i)) 0

/-- The loop of `string_split`: `v` is the vector built so far, `s` the current token. -/
def string_split_loop (c : Char) : Str → List Str → Str → List Str
  | [], v, s => v ++ [s]
  | x :: xs, v, s =>
    if x == c then string_split_loop c xs (v ++ [s]) []
    else string_split_loop c xs v (s ++ [x])

/-- The function `string_split` (lines 46-54). -/
def string_split (input : Str) (c : Char) : List Str :=
  string_split_loop c input [] []

/-- The function `get_integer` (lines 57-62). -/
def get_integer (s : Str) (st : Store) : Outcome Int :=
  match st s with
  | none => (.error (.str ("error: ".toList ++ s ++ " is undefined".toList)), st)
  | some v => (.ok v, st)

/-- The function `eval_int_var` (lines 65-69). -/
def eval_int_var (r : Str) (st : Store) : Outcome Int :=
  if regex_match r integer then (stoi r, st)
  else if regex_match r variable_rx then get_integer r st
  else (.error (.str "syntax error from eval_int_var".toList), st)

/-- The range-for loop of `integer_addition` and `integer_subtraction`:
`vi.push_back(eval_int_var(s))` for each token, left to right; a throw ends the loop. -/
def eval_tokens : List Str → List Int → Store → Outcome (List Int)
  | [], vi, st => (.ok vi, st)
  | s :: rest, vi, st =>
    match eval_int_var s st with
    | (.ok x, st1) => eval_tokens rest (vi ++ [x]) st1
    | (.error e, st1) => (.error e, st1)

/-- The function `integer_addition` (lines 72-77). -/
def integer_addition (input : Str) (st : Store) : Outcome Int :=
  match eval_tokens (string_split input '+') [] st with
  | (.ok vi, st1) => (.ok (vector_int_sum vi), st1)
  | (.error e, st1) => (.error e, st1)

/-- The loop `for (i = 1; i < vi.size(); i++) vi[i] = -vi[i]`. -/
def negate_from_1 : List Int → List Int
  | [] => []
  | x :: xs => x :: xs.map (fun y => wrap32 (-y))

/-- The function `integer_subtraction` (lines 80-87). -/
def integer_subtraction (input : Str) (st : Store) : Outcome Int :=
  match eval_tokens (string_split input '-') [] st with
  | (.ok vi, st1) => (.ok (vector_int_sum (negate_from_1 vi)), st1)
  | (.error e, st1) => (.error e, st1)

/-- The function `eval_no_assign` (lines 93-99). -/
def eval_no_assign (r : Str) (st : Store) : Outcome Int :=
  if regex_match r integer then (stoi r, st)
  else if regex_match r variable_rx then get_integer r st
  else if regex_match r addition then integer_addition r st
  else if regex_match r subtraction then integer_subtraction r st
  else (.error (.str "syntax error from eval_no_assign".toList), st)

/-- The function `assign_integer` (lines 102-109).  `v[0]` and `v[1]` are read with a
default, the indices being in range whenever the line contains `=`. -/
def assign_integer (input : Str) (st : Store) : Outcome Int :=
  let v := string_split input '='
  match eval_no_assign (v.getD 1 []) st with
  | (.error e, st1) => (.error e, st1)
  | (.ok rhs, st1) =>
    match st1 (v.getD 0 []) with
    | some _ => (.ok rhs, st1.insert_or_assign (v.getD 0 []) rhs)
    | none => (.ok rhs, st1.insert_or_assign (v.getD 0 []) rhs)

/-- The function `evaluate` (lines 112-119). -/
def evaluate (r : Str) (st : Store) : Outcome Int :=
  if regex_match r integer then (stoi r, st)
  else if regex_match r variable_rx then get_integer r st
  else if regex_match r assignment then assign_integer r st
  else if regex_match r addition then integer_addition r st
  else if regex_match r subtraction then integer_subtraction r st
  else (.error (.str "syntax error".toList), st)

/-- One turn of the loop of `main` (lines 121-133) on a line already read:
`trim_whitespace(input)` and then `evaluate(input)`; `none` when `trim_whitespace` has
no defined behaviour. -/
def main_turn (input : Str) (st : Store) : Option (Outcome Int) :=
  match trim_whitespace input with
  | none => none
  | some s => some (evaluate s st)

/-! ## Vocabulary of the specification -/

/-- The integer a literal `-?[0-9]+` denotes in decimal. -/
def denotes (n : Str) : Int :=
  match n with
  | '-' :: ds => -((Nat.ofDigits 10 (ds.reverse.map digitVal) : Nat) : Int)
  | ds => ((Nat.ofDigits 10 (ds.reverse.map digitVal) : Nat) : Int)

/-- Atoms joined by operators: `a0 op1 a1 op2 a2 ...`. -/
def chain (a0 : Str) : List (Char × Str) → Str
  | [] => a0
  | (op, a) :: rest => a0 ++ op :: chain a rest

/-- The text of a line before its first `=`. -/
def beforeEq (line : Str) : Str := line.takeWhile (fun c => c != '=')

/-- The message of the undefined-variable error for the name `v`. -/
def undefinedMsg (v : Str) : Str := "error: ".toList ++ v ++ " is undefined".toList

/-- Every character class of the pattern lies inside the predicate `P`. -/
def Regex.within (P : Char → Prop) : Regex → Prop
  | .nothing => True
  | .eps => True
  | .cls p => ∀ c, p c = true → P c
  | .alt r s => within P r ∧ within P s
  | .seq r s => within P r ∧ within P s
  | .star r => within P r

/-- The characters that occur in atoms and chains: word characters, `-` and `+`. -/
def isChainChar (c : Char) : Prop := isWord c = true ∨ c = '-' ∨ c = '+'

/-- The line matches none of the five rules tested by `evaluate`. -/
def matchesNoRule (line : Str) : Bool :=
  !regex_match line integer && !regex_match line variable_rx && !regex_match line assignment
    && !regex_match line addition && !regex_match line subtraction

/-- The atoms of the specification: an integer literal with its value, fitting in an
`int`, or a variable with its binding in the store. -/
def atomHasValue (st : Store) (a : Str) (v : Int) : Prop :=
  (regex_match a integer = true ∧ denotes a = v ∧ inInt32 v) ∨
    (regex_match a variable_rx = true ∧ st a = some v)

/-- The adjacency that no atom and no addition chain contains: a word character
directly followed by `-`. -/
def wordThenMinus (d e : Char) : Prop := isWord d = true ∧ e = '-'

/-- An atom in the sense of the chain rules: an integer literal or a variable name. -/
def isAtom (a : Str) : Prop :=
  regex_match a integer = true ∨ regex_match a variable_rx = true

/-- The string with every white-space character removed and the others kept in order. -/
def withoutWhitespace (s : Str) : Str := s.filter (fun c => !isspace c)

/-- The six syntactic categories of the specification. -/
inductive Category where
  | Integer
  | Variable
  | Assignment
  | AdditionChain
  | SubtractionChain
  | Invalid
  deriving DecidableEq, Repr

/-- Membership of a line in a category: the rule of the category matches the whole
line, and `Invalid` is the category of the lines that match no rule. -/
def belongs (s : Str) : Category → Bool
  | .Integer => regex_match s integer
  | .Variable => regex_match s variable_rx
  | .Assignment => regex_match s assignment
  | .AdditionChain => regex_match s addition
  | .SubtractionChain => regex_match s subtraction
  | .Invalid => matchesNoRule s

/-- The branch `evaluate` takes for a category. -/
def branch : Category → Str → Store → Outcome Int
  | .Integer, r, st => (stoi r, st)
  | .Variable, r, st => get_integer r st
  | .Assignment, r, st => assign_integer r st
  | .AdditionChain, r, st => integer_addition r st
  | .SubtractionChain, r, st => integer_subtraction r st
  | .Invalid, _, st => (.error (.str "syntax error".toList), st)

/-- The dispatch of `evaluate` with the rules tested in a given order. -/
def dispatch : List Category → Str → Store → Outcome Int
  | [], _, st => (.error (.str "syntax error".toList), st)
  | c :: cs, r, st => if belongs r c then branch c r st else dispatch cs r st

/-- The five rule categories in the order in which `evaluate` tests them. -/
def evaluateOrder : List Category :=
  [.Integer, .Variable, .Assignment, .AdditionChain, .SubtractionChain]

/-- A session: the lines are evaluated one after the other, each in the store the
previous one left. -/
def run_session : List Str → Store → Store
  | [], st => st
  | line :: rest, st => run_session rest (evaluate line st).2

/-- The successful assignments of a session, oldest first: the name before the first
`=` of each line that matches the assignment rule and on which `evaluate` returns, with
the integer returned. -/
def assignmentLog : List Str → Store → List (Str × Int)
  | [], _ => []
  | line :: rest, st =>
    (match regex_match line assignment, (evaluate line st).1 with
      | true, .ok k => [(beforeEq line, k)]
      | _, _ => []) ++ assignmentLog rest (evaluate line st).2

/-- The integer of the most recent entry of the log for a name, if there is one. -/
def lastAssigned (log : List (Str × Int)) (name : Str) : Option Int :=
  log.foldl (fun acc e => if e.1 = name then some e.2 else acc) none

/-- The variable-name rule `[a-zA-Z][a-zA-Z0-9_]*` as the specification writes it. -/
def spec_variable : Regex := .seq (.cls isAlpha) (.star (.cls isWord))

/-- The thrown value is a syntax error: a message that starts with `syntax error`. -/
def isSyntaxError : Exn → Bool
  | .str m => m.take 12 == "syntax error".toList
  | _ => false

/-- The thrown value is the undefined-variable message of some name. -/
def isUndefinedVariable (e : Exn) : Prop := ∃ v : Str, e = .str (undefinedMsg v)

/-- Agreement of two outcomes: the same integer, or the same undefined-variable error,
or a syntax error on both sides. -/
def agree (a b : Except Exn Int) : Prop :=
  (∃ k : Int, a = .ok k ∧ b = .ok k) ∨
    (∃ e : Exn, isUndefinedVariable e ∧ a = .error e ∧ b = .error e) ∨
    (∃ e1 e2 : Exn, a = .error e1 ∧ b = .error e2 ∧
      isSyntaxError e1 = true ∧ isSyntaxError e2 = true)

/-! # Theorems -/

/-! ## Correctness of the matcher -/

namespace Regex

theorem mem_cls (p : Char → Bool) (w : Str) :
    w ∈ (cls p).lang ↔ ∃ c, p c = true ∧ w = [c] := Iff.rfl

theorem nullable_iff (r : Regex) : r.nullable = true ↔ [] ∈ r.lang := by
  induction r with
  | nothing => simp [nullable, lang, Language.not_mem_zero]
  | eps => simp [nullable, lang, Language.nil_mem_one]
  | cls p => simp [nullable, mem_cls]
  | alt r s ihr ihs => simp [nullable, lang, Language.mem_add, ihr, ihs]
  | seq r s ihr ihs => simp [nullable, lang, Language.mem_mul, ihr, ihs]
  | star r _ => simp [nullable, lang, Language.nil_mem_kstar]

theorem cons_mem_mul (L M : Language Char) (c : Char) (w : Str) :
    c :: w ∈ L * M ↔
      (∃ a b, w = a ++ b ∧ c :: a ∈ L ∧ b ∈ M) ∨ ([] ∈ L ∧ c :: w ∈ M) := by
  rw [Language.mem_mul]
  constructor
  · rintro ⟨a, ha, b, hb, hab⟩
    cases a with
    | nil => right; simp at hab; subst hab; exact ⟨ha, hb⟩
    | cons x a =>
      left
      simp at hab
      obtain ⟨rfl, rfl⟩ := hab
      exact ⟨a, b, rfl, ha, hb⟩
  · rintro (⟨a, b, rfl, ha, hb⟩ | ⟨h1, h2⟩)
    · exact ⟨c :: a, ha, b, hb, rfl⟩
    · exact ⟨[], h1, c :: w, h2, rfl⟩

theorem cons_mem_kstar (L : Language Char) (c : Char) (w : Str) :
    c :: w ∈ KStar.kstar L ↔ ∃ a b, w = a ++ b ∧ c :: a ∈ L ∧ b ∈ KStar.kstar L := by
  constructor
  · intro h
    rw [Language.mem_kstar_iff_exists_nonempty] at h
    obtain ⟨S, hS, hall⟩ := h
    cases S with
    | nil => simp at hS
    | cons y S =>
      obtain ⟨hy, hne⟩ := hall y (List.mem_cons_self _ _)
      cases y with
      | nil => exact absurd rfl hne
      | cons x y =>
        simp at hS
        obtain ⟨rfl, rfl⟩ := hS
        refine ⟨y, S.flatten, rfl, hy, ?_⟩
        exact Language.join_mem_kstar (fun z hz => (hall z (List.mem_cons_of_mem _ hz)).1)
  · rintro ⟨a, b, rfl, ha, hb⟩
    rw [← Language.one_add_self_mul_kstar_eq_kstar, Language.mem_add]
    right
    exact Language.append_mem_mul ha hb

theorem mem_deriv (r : Regex) (c : Char) : ∀ w : Str, w ∈ (r.deriv c).lang ↔ c :: w ∈ r.lang := by
  induction r with
  | nothing => intro w; simp [deriv, lang, Language.not_mem_zero]
  | eps => intro w; simp [deriv, lang, Language.not_mem_zero, Language.mem_one]
  | cls p =>
    intro w
    by_cases h : p c = true
    · rw [mem_cls]
      simp only [deriv, h, if_true, lang, Language.mem_one]
      constructor
      · rintro rfl; exact ⟨c, h, rfl⟩
      · rintro ⟨x, _, hx⟩; exact (List.cons.inj hx).2
    · rw [mem_cls]
      simp only [deriv, h]
      rw [if_neg (by simp)]
      simp only [lang, Language.not_mem_zero, false_iff]
      rintro ⟨x, hx, hw⟩
      obtain ⟨rfl, -⟩ := List.cons.inj hw
      exact h hx
  | alt r s ihr ihs => intro w; simp [deriv, lang, Language.mem_add, ihr, ihs]
  | seq r s ihr ihs =>
    intro w
    have key : w ∈ ((r.deriv c).seq s).lang ↔ ∃ a b, w = a ++ b ∧ c :: a ∈ r.lang ∧ b ∈ s.lang := by
      simp only [lang, Language.mem_mul]
      constructor
      · rintro ⟨a, ha, b, hb, rfl⟩
        exact ⟨a, b, rfl, (ihr a).1 ha, hb⟩
      · rintro ⟨a, b, rfl, ha, hb⟩
        exact ⟨a, (ihr a).2 ha, b, hb, rfl⟩
    by_cases h : r.nullable = true
    · have h' := (nullable_iff r).1 h
      simp only [deriv, h, if_true]
      rw [show (((r.deriv c).seq s).alt (s.deriv c)).lang
            = ((r.deriv c).seq s).lang + (s.deriv c).lang from rfl, Language.mem_add, key, ihs,
        show (r.seq s).lang = r.lang * s.lang from rfl, cons_mem_mul]
      simp [h']
    · have h' : [] ∉ r.lang := fun hn => h ((nullable_iff r).2 hn)
      simp only [deriv, h]
      rw [if_neg (by simp), key, show (r.seq s).lang = r.lang * s.lang from rfl, cons_mem_mul]
      simp [h']
  | star r ih =>
    intro w
    simp only [deriv, lang]
    rw [cons_mem_kstar, Language.mem_mul]
    constructor
    · rintro ⟨a, ha, b, hb, rfl⟩
      exact ⟨a, b, rfl, (ih a).1 ha, hb⟩
    · rintro ⟨a, b, rfl, ha, hb⟩
      exact ⟨a, (ih a).2 ha, b, hb, rfl⟩

end Regex

/-- The matcher decides membership in the denoted language. -/
theorem regex_match_iff : ∀ (w : Str) (r : Regex), regex_match w r = true ↔ w ∈ r.lang
  | [], r => by simpa [regex_match] using Regex.nullable_iff r
  | c :: cs, r => by
    rw [regex_match, regex_match_iff cs (r.deriv c), Regex.mem_deriv]

/-! ## Reading the languages of the patterns -/

namespace Regex

theorem mem_alt (r s : Regex) (w : Str) : w ∈ (alt r s).lang ↔ w ∈ r.lang ∨ w ∈ s.lang :=
  Language.mem_add _ _ _

theorem mem_seq (r s : Regex) (w : Str) :
    w ∈ (seq r s).lang ↔ ∃ a b, a ∈ r.lang ∧ b ∈ s.lang ∧ w = a ++ b := by
  rw [show (seq r s).lang = r.lang * s.lang from rfl, Language.mem_mul]
  constructor
  · rintro ⟨a, ha, b, hb, rfl⟩; exact ⟨a, b, ha, hb, rfl⟩
  · rintro ⟨a, b, ha, hb, rfl⟩; exact ⟨a, ha, b, hb, rfl⟩

theorem mem_chr (c : Char) (w : Str) : w ∈ (chr c).lang ↔ w = [c] := by
  rw [chr, mem_cls]
  constructor
  · rintro ⟨x, hx, rfl⟩; simp at hx; rw [hx]
  · rintro rfl; exact ⟨c, by simp, rfl⟩

theorem mem_star (r : Regex) (w : Str) :
    w ∈ (star r).lang ↔ ∃ S : List Str, w = S.flatten ∧ ∀ y ∈ S, y ∈ r.lang :=
  Language.mem_kstar

theorem mem_star_cls (p : Char → Bool) :
    ∀ w : Str, w ∈ (star (cls p)).lang ↔ ∀ c ∈ w, p c = true
  | [] => by simp [lang, Language.nil_mem_kstar]
  | c :: w => by
    rw [show (star (cls p)).lang = KStar.kstar (cls p).lang from rfl, cons_mem_kstar]
    have ih := mem_star_cls p w
    rw [show (star (cls p)).lang = KStar.kstar (cls p).lang from rfl] at ih
    constructor
    · rintro ⟨a, b, rfl, ha, hb⟩
      rw [mem_cls] at ha
      obtain ⟨x, hx, hax⟩ := ha
      obtain ⟨rfl, rfl⟩ := List.cons.inj hax
      intro d hd
      rcases List.mem_cons.1 hd with rfl | hd
      · exact hx
      · exact (mem_star_cls p _).1 hb d (by simpa using hd)
    · intro h
      refine ⟨[], w, rfl, ⟨c, h c (List.mem_cons_self _ _), rfl⟩, ih.2 ?_⟩
      exact fun d hd => h d (List.mem_cons_of_mem _ hd)

theorem mem_plus_cls (p : Char → Bool) (w : Str) :
    w ∈ (plus (cls p)).lang ↔ w ≠ [] ∧ ∀ c ∈ w, p c = true := by
  rw [plus, mem_seq]
  constructor
  · rintro ⟨a, b, ha, hb, rfl⟩
    rw [mem_cls] at ha
    obtain ⟨x, hx, rfl⟩ := ha
    refine ⟨by simp, ?_⟩
    intro d hd
    rcases List.mem_cons.1 hd with rfl | hd
    · exact hx
    · exact (mem_star_cls p b).1 hb d hd
  · rintro ⟨hne, h⟩
    cases w with
    | nil => exact absurd rfl hne
    | cons c w =>
      exact ⟨[c], w, ⟨c, h c (List.mem_cons_self _ _), rfl⟩,
        (mem_star_cls p w).2 (fun d hd => h d (List.mem_cons_of_mem _ hd)), rfl⟩

theorem chars_within (P : Char → Prop) (r : Regex) :
    r.within P → ∀ w : Str, w ∈ r.lang → ∀ c ∈ w, P c := by
  induction r with
  | nothing => intro _ w hw; exact absurd hw (Language.not_mem_zero w)
  | eps =>
    intro _ w hw c hc
    rw [show eps.lang = 1 from rfl, Language.mem_one] at hw
    subst hw
    simp at hc
  | cls p =>
    rintro h w ⟨x, hx, rfl⟩ c hc
    simp at hc
    subst hc
    exact h _ hx
  | alt r s ihr ihs =>
    rintro ⟨h1, h2⟩ w hw
    rcases (mem_alt r s w).1 hw with hw | hw
    · exact ihr h1 w hw
    · exact ihs h2 w hw
  | seq r s ihr ihs =>
    rintro ⟨h1, h2⟩ w hw c hc
    obtain ⟨a, b, ha, hb, rfl⟩ := (mem_seq r s w).1 hw
    rcases List.mem_append.1 hc with hc | hc
    · exact ihr h1 a ha c hc
    · exact ihs h2 b hb c hc
  | star r ih =>
    intro h w hw c hc
    obtain ⟨S, rfl, hS⟩ := (mem_star r w).1 hw
    obtain ⟨y, hy, hcy⟩ := List.mem_flatten.1 hc
    exact ih h y (hS y hy) c hcy

end Regex

/-! ## Character classes -/

theorem char_le_iff (a c : Char) : a ≤ c ↔ a.toNat ≤ c.toNat := Iff.rfl

theorem isDigit_iff (c : Char) : isDigit c = true ↔ 48 ≤ c.toNat ∧ c.toNat ≤ 57 := by
  simp [isDigit, char_le_iff]

theorem isAlpha_iff (c : Char) :
    isAlpha c = true ↔ (97 ≤ c.toNat ∧ c.toNat ≤ 122) ∨ (65 ≤ c.toNat ∧ c.toNat ≤ 90) := by
  simp [isAlpha, char_le_iff]

theorem isWord_iff (c : Char) :
    isWord c = true ↔ isAlpha c = true ∨ isDigit c = true ∨ c = '_' := by
  simp [isWord, isAlpha, isDigit, or_assoc]

theorem isWord_toNat (c : Char) (h : isWord c = true) :
    (97 ≤ c.toNat ∧ c.toNat ≤ 122) ∨ (65 ≤ c.toNat ∧ c.toNat ≤ 90) ∨
      (48 ≤ c.toNat ∧ c.toNat ≤ 57) ∨ c.toNat = 95 := by
  rcases (isWord_iff c).1 h with h | h | h
  · rcases (isAlpha_iff c).1 h with h | h
    · exact Or.inl h
    · exact Or.inr (Or.inl h)
  · exact Or.inr (Or.inr (Or.inl ((isDigit_iff c).1 h)))
  · subst h; exact Or.inr (Or.inr (Or.inr rfl))

theorem isWord_of_isAlpha (c : Char) (h : isAlpha c = true) : isWord c = true :=
  (isWord_iff c).2 (Or.inl h)

theorem isWord_of_isDigit (c : Char) (h : isDigit c = true) : isWord c = true :=
  (isWord_iff c).2 (Or.inr (Or.inl h))

theorem isWord_ne_eq (c : Char) (h : isWord c = true) : c ≠ '=' := by
  rintro rfl; revert h; decide

theorem isWord_ne_minus (c : Char) (h : isWord c = true) : c ≠ '-' := by
  rintro rfl; revert h; decide

theorem isWord_ne_plus (c : Char) (h : isWord c = true) : c ≠ '+' := by
  rintro rfl; revert h; decide

theorem isWord_isDot (c : Char) (h : isWord c = true) : isDot c = true := by
  have h1 : c ≠ '\n' := by rintro rfl; revert h; decide
  have h2 : c ≠ '\r' := by rintro rfl; revert h; decide
  simp [isDot, h1, h2]

theorem isWord_not_isspace (c : Char) (h : isWord c = true) : isspace c = false := by
  have h' := isWord_toNat c h
  have e : ∀ d : Char, c = d → c.toNat = d.toNat := fun d hd => by rw [hd]
  simp only [isspace, Bool.or_eq_false_iff, beq_eq_false_iff_ne]
  refine ⟨⟨⟨⟨⟨?_, ?_⟩, ?_⟩, ?_⟩, ?_⟩, ?_⟩ <;>
  · intro hc
    have := e _ hc
    simp at this
    omega

/-! ## The atom patterns -/

theorem mem_int_ (w : Str) :
    w ∈ int_.lang ↔
      ∃ ds : Str, ds ≠ [] ∧ (∀ d ∈ ds, isDigit d = true) ∧ (w = ds ∨ w = '-' :: ds) := by
  rw [int_, Regex.mem_seq]
  constructor
  · rintro ⟨a, b, ha, hb, rfl⟩
    obtain ⟨hne, hall⟩ := (Regex.mem_plus_cls isDigit b).1 hb
    refine ⟨b, hne, hall, ?_⟩
    rcases (Regex.mem_alt _ _ a).1 ha with ha | ha
    · right; rw [(Regex.mem_chr '-' a).1 ha]; rfl
    · left
      rw [show Regex.eps.lang = 1 from rfl, Language.mem_one] at ha
      rw [ha]; rfl
  · rintro ⟨ds, hne, hall, hw | hw⟩ <;> rw [hw]
    · exact ⟨[], ds, (Regex.mem_alt _ _ _).2 (Or.inr Language.nil_mem_one),
        (Regex.mem_plus_cls isDigit ds).2 ⟨hne, hall⟩, rfl⟩
    · exact ⟨['-'], ds, (Regex.mem_alt _ _ _).2 (Or.inl ((Regex.mem_chr '-' _).2 rfl)),
        (Regex.mem_plus_cls isDigit ds).2 ⟨hne, hall⟩, rfl⟩

theorem mem_var_ (w : Str) :
    w ∈ var_.lang ↔
      ∃ (c : Char) (rest : Str), w = c :: rest ∧ isAlpha c = true ∧ ∀ d ∈ rest, isWord d = true := by
  rw [var_, Regex.mem_seq]
  constructor
  · rintro ⟨a, b, ha, hb, rfl⟩
    obtain ⟨hne, hall⟩ := (Regex.mem_plus_cls isAlpha a).1 ha
    have hb' := (Regex.mem_star_cls isWord b).1 hb
    cases a with
    | nil => exact absurd rfl hne
    | cons c a =>
      refine ⟨c, a ++ b, rfl, hall c (List.mem_cons_self _ _), ?_⟩
      intro d hd
      rcases List.mem_append.1 hd with hd | hd
      · exact isWord_of_isAlpha d (hall d (List.mem_cons_of_mem _ hd))
      · exact hb' d hd
  · rintro ⟨c, rest, rfl, hc, hrest⟩
    refine ⟨[c], rest, (Regex.mem_plus_cls isAlpha [c]).2 ⟨by simp, ?_⟩,
      (Regex.mem_star_cls isWord rest).2 hrest, rfl⟩
    intro d hd
    simp at hd
    rw [hd]; exact hc

/-- An atom is not empty, all its characters after the first are word characters, and
so is its last character. -/
theorem iv_shape (w : Str) (h : w ∈ iv.lang) :
    ∃ (c : Char) (rest : Str), w = c :: rest ∧ (isWord c = true ∨ c = '-') ∧
      (∀ d ∈ rest, isWord d = true) ∧ (∀ d ∈ w.getLast?, isWord d = true) := by
  rcases (Regex.mem_alt _ _ w).1 h with h | h
  · obtain ⟨ds, hne, hall, hw | hw⟩ := (mem_int_ w).1 h <;> rw [hw]
    · cases ds with
      | nil => exact absurd rfl hne
      | cons c ds =>
        have hw : ∀ d ∈ c :: ds, isWord d = true := fun d hd => isWord_of_isDigit d (hall d hd)
        refine ⟨c, ds, rfl, Or.inl (hw c (List.mem_cons_self _ _)),
          fun d hd => hw d (List.mem_cons_of_mem _ hd), ?_⟩
        intro d hd
        exact hw d (List.mem_of_mem_getLast? hd)
    · refine ⟨'-', ds, rfl, Or.inr rfl, fun d hd => isWord_of_isDigit d (hall d hd), ?_⟩
      intro d hd
      cases ds with
      | nil => exact absurd rfl hne
      | cons c ds =>
        rw [List.getLast?_cons_cons] at hd
        exact isWord_of_isDigit d (hall d (List.mem_of_mem_getLast? hd))
  · obtain ⟨c, rest, rfl, hc, hrest⟩ := (mem_var_ w).1 h
    have hw : ∀ d ∈ c :: rest, isWord d = true := by
      intro d hd
      rcases List.mem_cons.1 hd with rfl | hd
      · exact isWord_of_isAlpha _ hc
      · exact hrest d hd
    exact ⟨c, rest, rfl, Or.inl (hw c (List.mem_cons_self _ _)), hrest,
      fun d hd => hw d (List.mem_of_mem_getLast? hd)⟩

theorem int_within : int_.within (fun c => isWord c = true ∨ c = '-') := by
  refine ⟨⟨?_, trivial⟩, ?_, ?_⟩
  · intro c hc; right; simpa using hc
  · intro c hc; exact Or.inl (isWord_of_isDigit c hc)
  · intro c hc; exact Or.inl (isWord_of_isDigit c hc)

theorem var_within : var_.within (fun c => isWord c = true) :=
  ⟨⟨fun c hc => isWord_of_isAlpha c hc, fun c hc => isWord_of_isAlpha c hc⟩, fun _ hc => hc⟩

theorem within_mono {P Q : Char → Prop} (hPQ : ∀ c, P c → Q c) :
    ∀ r : Regex, r.within P → r.within Q
  | .nothing, _ => trivial
  | .eps, _ => trivial
  | .cls _, h => fun c hc => hPQ c (h c hc)
  | .alt r s, h => ⟨within_mono hPQ r h.1, within_mono hPQ s h.2⟩
  | .seq r s, h => ⟨within_mono hPQ r h.1, within_mono hPQ s h.2⟩
  | .star r, h => within_mono hPQ r h

theorem iv_within : iv.within (fun c => isWord c = true ∨ c = '-') :=
  ⟨int_within, within_mono (fun _ h => Or.inl h) var_ var_within⟩

theorem subtraction_within : subtraction_.within (fun c => isWord c = true ∨ c = '-') := by
  have hc : (Regex.chr '-').within (fun c => isWord c = true ∨ c = '-') :=
    fun c hc => Or.inr (by simpa using hc)
  exact ⟨⟨⟨iv_within, hc⟩, iv_within, hc⟩, iv_within⟩

theorem addition_within : addition_.within isChainChar := by
  have hiv : iv.within isChainChar :=
    within_mono (fun c h => h.elim Or.inl (fun h => Or.inr (Or.inl h))) iv iv_within
  have hc : (Regex.chr '+').within isChainChar :=
    fun c hc => Or.inr (Or.inr (by simpa using hc))
  exact ⟨⟨⟨hiv, hc⟩, hiv, hc⟩, hiv⟩

/-- A line matching one of the four expression rules consists of word characters, `-`
and `+`. -/
theorem chars_of_expr (w : Str)
    (h : regex_match w integer = true ∨ regex_match w variable_rx = true ∨
      regex_match w addition = true ∨ regex_match w subtraction = true) :
    ∀ c ∈ w, isChainChar c := by
  have up : ∀ c, (isWord c = true ∨ c = '-') → isChainChar c :=
    fun c h => h.elim Or.inl (fun h => Or.inr (Or.inl h))
  rcases h with h | h | h | h
  · exact Regex.chars_within _ _ (within_mono up _ int_within) w ((regex_match_iff _ _).1 h)
  · exact Regex.chars_within _ _ (within_mono (fun _ h => Or.inl h) _ var_within) w
      ((regex_match_iff _ _).1 h)
  · exact Regex.chars_within _ _ addition_within w ((regex_match_iff _ _).1 h)
  · exact Regex.chars_within _ _ (within_mono up _ subtraction_within) w
      ((regex_match_iff _ _).1 h)

theorem isChainChar_ne_eq (c : Char) (h : isChainChar c) : c ≠ '=' := by
  rcases h with h | rfl | rfl
  · exact isWord_ne_eq c h
  · decide
  · decide

theorem isChainChar_isDot (c : Char) (h : isChainChar c) : isDot c = true := by
  rcases h with h | rfl | rfl
  · exact isWord_isDot c h
  · decide
  · decide

/-! ## `string_split` -/

theorem string_split_loop_acc (c : Char) :
    ∀ (w : Str) (v : List Str) (s : Str),
      string_split_loop c w v s = v ++ string_split_loop c w [] s
  | [], v, s => by simp [string_split_loop]
  | x :: xs, v, s => by
    by_cases h : (x == c) = true
    · simp only [string_split_loop, h, if_true]
      rw [string_split_loop_acc c xs (v ++ [s]) [], string_split_loop_acc c xs ([] ++ [s]) []]
      simp
    · simp only [string_split_loop, h]
      exact string_split_loop_acc c xs v (s ++ [x])

theorem string_split_loop_no_sep (c : Char) :
    ∀ (a : Str) (s : Str), c ∉ a → string_split_loop c a [] s = [s ++ a]
  | [], s, _ => by simp [string_split_loop]
  | x :: xs, s, h => by
    have hx : (x == c) = false := by
      simp only [beq_eq_false_iff_ne]
      rintro rfl
      exact h (List.mem_cons_self _ _)
    have hxs : c ∉ xs := fun hc => h (List.mem_cons_of_mem _ hc)
    simp only [string_split_loop, hx]
    rw [if_neg (by simp), string_split_loop_no_sep c xs (s ++ [x]) hxs]
    simp

theorem string_split_loop_sep (c : Char) (w : Str) :
    ∀ (a : Str) (s : Str), c ∉ a →
      string_split_loop c (a ++ c :: w) [] s = (s ++ a) :: string_split_loop c w [] []
  | [], s, _ => by
    simp only [List.nil_append, string_split_loop, beq_self_eq_true, if_true, List.append_nil]
    rw [string_split_loop_acc]
    rfl
  | x :: xs, s, h => by
    have hx : (x == c) = false := by
      simp only [beq_eq_false_iff_ne]
      rintro rfl
      exact h (List.mem_cons_self _ _)
    have hxs : c ∉ xs := fun hc => h (List.mem_cons_of_mem _ hc)
    have ih := string_split_loop_sep c w xs (s ++ [x]) hxs
    rw [List.cons_append, string_split_loop, hx, if_neg (by simp), ih]
    simp

/-- A string without the separator splits into itself. -/
theorem string_split_no_sep (c : Char) (a : Str) (h : c ∉ a) : string_split a c = [a] := by
  rw [string_split, string_split_loop_no_sep c a [] h]; rfl

/-- The first token ends at the first separator. -/
theorem string_split_sep (c : Char) (a w : Str) (h : c ∉ a) :
    string_split (a ++ c :: w) c = a :: string_split w c := by
  rw [string_split, string_split_loop_sep c w a [] h]; rfl

/-- Splitting the atoms joined by the separator gives the atoms back. -/
theorem string_split_intercalate (c : Char) :
    ∀ (a : Str) (atoms : List Str), (∀ x ∈ a :: atoms, c ∉ x) →
      string_split (List.intercalate [c] (a :: atoms)) c = a :: atoms
  | a, [], h => by
    simpa [List.intercalate] using string_split_no_sep c a (h a (List.mem_cons_self _ _))
  | a, b :: rest, h => by
    have e : List.intercalate [c] (a :: b :: rest) = a ++ c :: List.intercalate [c] (b :: rest) := by
      simp [List.intercalate]
    rw [e, string_split_sep c a _ (h a (List.mem_cons_self _ _)),
      string_split_intercalate c b rest (fun x hx => h x (List.mem_cons_of_mem _ hx))]

/-! ## `std::stoi` on integer literals -/

theorem digitsValue_eq_ofDigits (ds : List Char) :
    digitsValue ds = Nat.ofDigits 10 (ds.reverse.map digitVal) := by
  induction ds using List.reverseRecOn with
  | nil => rfl
  | append_singleton ds d ih =>
    have e : digitsValue (ds ++ [d]) = digitsValue ds * 10 + digitVal d := by
      simp [digitsValue, List.foldl_append]
    rw [e, ih]
    simp [Nat.ofDigits_cons]
    ring

theorem isDigit_not_isspace (c : Char) (h : isDigit c = true) : isspace c = false :=
  isWord_not_isspace c (isWord_of_isDigit c h)

theorem stoi_digits (ds : Str) (hne : ds ≠ []) (hall : ∀ d ∈ ds, isDigit d = true) :
    stoi ds = if INT_MIN ≤ (digitsValue ds : Int) ∧ (digitsValue ds : Int) ≤ INT_MAX
      then .ok (digitsValue ds : Int) else .error .out_of_range := by
  cases ds with
  | nil => exact absurd rfl hne
  | cons c t =>
    have hc := hall c (List.mem_cons_self _ _)
    have hsp := isDigit_not_isspace c hc
    have h1 : c ≠ '-' := isWord_ne_minus c (isWord_of_isDigit c hc)
    have h2 : c ≠ '+' := isWord_ne_plus c (isWord_of_isDigit c hc)
    have hdrop : (c :: t).dropWhile isspace = c :: t := by simp [List.dropWhile, hsp]
    have htake : (c :: t).takeWhile isDigit = c :: t := List.takeWhile_eq_self_iff.2 hall
    have hm : (match c :: t with
        | '-' :: t' => (true, t')
        | '+' :: t' => (false, t')
        | _ => (false, c :: t)) = (false, c :: t) := by
      split
      · rename_i heq; exact absurd (List.cons.inj heq).1 h1
      · rename_i heq; exact absurd (List.cons.inj heq).1 h2
      · rfl
    unfold stoi
    simp only [hdrop, hm, htake]
    simp

theorem stoi_minus_digits (ds : Str) (hne : ds ≠ []) (hall : ∀ d ∈ ds, isDigit d = true) :
    stoi ('-' :: ds) = if INT_MIN ≤ -(digitsValue ds : Int) ∧ -(digitsValue ds : Int) ≤ INT_MAX
      then .ok (-(digitsValue ds : Int)) else .error .out_of_range := by
  have hdrop : ('-' :: ds).dropWhile isspace = '-' :: ds := by
    have : isspace '-' = false := by decide
    simp [List.dropWhile, this]
  have htake : ds.takeWhile isDigit = ds := List.takeWhile_eq_self_iff.2 hall
  unfold stoi
  simp only [hdrop, htake]
  simp [hne]

theorem denotes_digits (ds : Str) (hne : ds ≠ []) (hall : ∀ d ∈ ds, isDigit d = true) :
    denotes ds = (digitsValue ds : Int) := by
  cases ds with
  | nil => exact absurd rfl hne
  | cons c t =>
    have h1 : c ≠ '-' := isWord_ne_minus c (isWord_of_isDigit c (hall c (List.mem_cons_self _ _)))
    rw [digitsValue_eq_ofDigits]
    unfold denotes
    split
    · rename_i heq; exact absurd (List.cons.inj heq).1 h1
    · rfl

theorem denotes_minus_digits (ds : Str) :
    denotes ('-' :: ds) = -(digitsValue ds : Int) := by
  rw [digitsValue_eq_ofDigits]; rfl

/-- On an integer literal `stoi` returns the denoted value when it fits in an `int`
and throws `out_of_range` otherwise. -/
theorem stoi_literal (n : Str) (h : regex_match n integer = true) :
    stoi n = if inInt32 (denotes n) then .ok (denotes n) else .error .out_of_range := by
  obtain ⟨ds, hne, hall, hn | hn⟩ := (mem_int_ n).1 ((regex_match_iff n _).1 h) <;> rw [hn]
  · rw [stoi_digits ds hne hall, denotes_digits ds hne hall]; rfl
  · rw [stoi_minus_digits ds hne hall, denotes_minus_digits]; rfl

/-! ## The rules exclude one another where the evaluator relies on it -/

/-- A line matching one of the four expression rules contains no `=`. -/
theorem expr_no_eq (w : Str)
    (h : regex_match w integer = true ∨ regex_match w variable_rx = true ∨
      regex_match w addition = true ∨ regex_match w subtraction = true) : '=' ∉ w :=
  fun hmem => isChainChar_ne_eq '=' (chars_of_expr w h '=' hmem) rfl

/-- A line matching one of the four expression rules is not empty. -/
theorem expr_ne_nil (w : Str)
    (h : regex_match w integer = true ∨ regex_match w variable_rx = true ∨
      regex_match w addition = true ∨ regex_match w subtraction = true) : w ≠ [] := by
  rintro rfl
  revert h
  decide

/-- A line matching the assignment rule is a variable name, `=`, and a non-empty rest
without line terminator. -/
theorem mem_assignment (w : Str) :
    regex_match w assignment = true ↔
      ∃ v rhs : Str, w = v ++ '=' :: rhs ∧ regex_match v variable_rx = true ∧ rhs ≠ [] ∧
        ∀ c ∈ rhs, isDot c = true := by
  rw [regex_match_iff, assignment, Regex.mem_seq]
  constructor
  · rintro ⟨v, b, hv, hb, rfl⟩
    obtain ⟨e, rhs, he, hrhs, rfl⟩ := (Regex.mem_seq _ _ b).1 hb
    rw [(Regex.mem_chr '=' e).1 he]
    obtain ⟨hne, hall⟩ := (Regex.mem_plus_cls isDot rhs).1 hrhs
    exact ⟨v, rhs, rfl, (regex_match_iff v _).2 hv, hne, hall⟩
  · rintro ⟨v, rhs, rfl, hv, hne, hall⟩
    exact ⟨v, '=' :: rhs, (regex_match_iff v _).1 hv,
      (Regex.mem_seq _ _ _).2 ⟨['='], rhs, (Regex.mem_chr '=' _).2 rfl,
        (Regex.mem_plus_cls isDot rhs).2 ⟨hne, hall⟩, rfl⟩, rfl⟩

theorem assignment_has_eq (w : Str) (h : regex_match w assignment = true) : '=' ∈ w := by
  obtain ⟨v, rhs, rfl, -, -, -⟩ := (mem_assignment w).1 h
  simp

theorem not_integer_of_eq (w : Str) (h : '=' ∈ w) : regex_match w integer = false := by
  by_contra hc
  exact expr_no_eq w (Or.inl (by simpa using hc)) h

theorem not_variable_of_eq (w : Str) (h : '=' ∈ w) : regex_match w variable_rx = false := by
  by_contra hc
  exact expr_no_eq w (Or.inr (Or.inl (by simpa using hc))) h

theorem not_addition_of_eq (w : Str) (h : '=' ∈ w) : regex_match w addition = false := by
  by_contra hc
  exact expr_no_eq w (Or.inr (Or.inr (Or.inl (by simpa using hc)))) h

theorem not_subtraction_of_eq (w : Str) (h : '=' ∈ w) : regex_match w subtraction = false := by
  by_contra hc
  exact expr_no_eq w (Or.inr (Or.inr (Or.inr (by simpa using hc)))) h

theorem isAlpha_not_isDigit (c : Char) (h : isAlpha c = true) : ¬ isDigit c = true := by
  intro hd
  have h1 := (isAlpha_iff c).1 h
  have h2 := (isDigit_iff c).1 hd
  omega

theorem isAlpha_ne_minus (c : Char) (h : isAlpha c = true) : c ≠ '-' :=
  isWord_ne_minus c (isWord_of_isAlpha c h)

/-- A variable name is not an integer literal. -/
theorem not_integer_of_variable (v : Str) (h : regex_match v variable_rx = true) :
    regex_match v integer = false := by
  by_contra hc
  have hi : regex_match v integer = true := by simpa using hc
  obtain ⟨c, rest, hv, hα, -⟩ := (mem_var_ v).1 ((regex_match_iff v _).1 h)
  obtain ⟨ds, hne, hall, hd | hd⟩ := (mem_int_ v).1 ((regex_match_iff v _).1 hi)
  · rw [hv] at hd
    subst hd
    exact isAlpha_not_isDigit c hα (hall c (List.mem_cons_self _ _))
  · rw [hv] at hd
    exact isAlpha_ne_minus c hα (List.cons.inj hd).1

/-! ## Frame lemmas: the store after a call -/

theorem get_integer_store (s : Str) (st : Store) : (get_integer s st).2 = st := by
  unfold get_integer; split <;> rfl

theorem eval_int_var_store (r : Str) (st : Store) : (eval_int_var r st).2 = st := by
  unfold eval_int_var
  split
  · rfl
  · split
    · exact get_integer_store r st
    · rfl

theorem eval_tokens_store :
    ∀ (toks : List Str) (vi : List Int) (st : Store), (eval_tokens toks vi st).2 = st
  | [], _, _ => rfl
  | s :: rest, vi, st => by
    have h := eval_int_var_store s st
    unfold eval_tokens
    split
    · rename_i x st1 heq
      rw [heq] at h
      simp only at h
      subst h
      exact eval_tokens_store rest _ _
    · rename_i e st1 heq
      rw [heq] at h
      exact h

theorem integer_addition_store (input : Str) (st : Store) :
    (integer_addition input st).2 = st := by
  have h := eval_tokens_store (string_split input '+') [] st
  unfold integer_addition
  split <;> (rename_i heq; rw [heq] at h; exact h)

theorem integer_subtraction_store (input : Str) (st : Store) :
    (integer_subtraction input st).2 = st := by
  have h := eval_tokens_store (string_split input '-') [] st
  unfold integer_subtraction
  split <;> (rename_i heq; rw [heq] at h; exact h)

theorem eval_no_assign_store (r : Str) (st : Store) : (eval_no_assign r st).2 = st := by
  unfold eval_no_assign
  split
  · rfl
  · split
    · exact get_integer_store r st
    · split
      · exact integer_addition_store r st
      · split
        · exact integer_subtraction_store r st
        · rfl

/-- A failing `assign_integer` leaves the store as it was. -/
theorem assign_integer_error_store (input : Str) (st : Store) (e : Exn)
    (h : (assign_integer input st).1 = .error e) : (assign_integer input st).2 = st := by
  have hs := eval_no_assign_store ((string_split input '=').getD 1 []) st
  unfold assign_integer at h ⊢
  simp only at h ⊢
  split
  · rename_i heq; rw [heq] at hs; exact hs
  · rename_i rhs st1 heq
    rw [heq] at h
    simp only at h
    split at h <;> cases h

/-- A failing `evaluate` leaves the store as it was. -/
theorem evaluate_error_store (r : Str) (st : Store) (e : Exn)
    (h : (evaluate r st).1 = .error e) : (evaluate r st).2 = st := by
  unfold evaluate at h ⊢
  split
  · rfl
  · split
    · exact get_integer_store r st
    · split
      · rename_i h1 h2 h3
        simp only [h1, h2, h3, if_true] at h
        exact assign_integer_error_store r st e (by simpa using h)
      · split
        · exact integer_addition_store r st
        · split
          · exact integer_subtraction_store r st
          · rfl

/-! ## Evaluating atoms and sums -/

theorem wrap32_of_inInt32 (x : Int) (h : inInt32 x) : wrap32 x = x := by
  obtain ⟨h1, h2⟩ := h
  unfold wrap32
  omega

theorem foldl_wrap_sum :
    ∀ (l : List Int) (acc : Int), (∀ j, j ≤ l.length → inInt32 (acc + (l.take j).sum)) →
      l.foldl (fun sum i => wrap32 (sum + i)) acc = acc + l.sum
  | [], acc, _ => by simp
  | x :: xs, acc, h => by
    have h1 : inInt32 (acc + x) := by simpa using h 1 (by simp)
    have ih := foldl_wrap_sum xs (acc + x) (fun j hj => by
      have := h (j + 1) (by simpa using hj)
      simpa [add_assoc] using this)
    rw [List.foldl_cons, wrap32_of_inInt32 _ h1, ih, List.sum_cons, add_assoc]

/-- Without overflow of a running sum, `vector_int_sum` is the mathematical sum. -/
theorem vector_int_sum_eq (l : List Int) (h : ∀ j, j ≤ l.length → inInt32 ((l.take j).sum)) :
    vector_int_sum l = l.sum := by
  have := foldl_wrap_sum l 0 (fun j hj => by simpa using h j hj)
  simpa [vector_int_sum] using this

theorem eval_tokens_ok :
    ∀ (toks : List Str) (vals : List Int) (st : Store),
      List.Forall₂ (fun t v => eval_int_var t st = (.ok v, st)) toks vals →
      ∀ vi, eval_tokens toks vi st = (.ok (vi ++ vals), st)
  | [], _, st, h, vi => by cases h; simp [eval_tokens]
  | t :: toks, _, st, h, vi => by
    cases h with
    | cons h1 h2 =>
      rw [eval_tokens, h1]
      simp only
      rw [eval_tokens_ok toks _ st h2]
      simp

theorem eval_int_var_literal (st : Store) (a : Str) (h : regex_match a integer = true)
    (hfit : inInt32 (denotes a)) : eval_int_var a st = (.ok (denotes a), st) := by
  rw [eval_int_var, if_pos h, stoi_literal a h, if_pos hfit]

theorem eval_int_var_bound (st : Store) (a : Str) (v : Int)
    (h : regex_match a variable_rx = true) (hb : st a = some v) :
    eval_int_var a st = (.ok v, st) := by
  have hi := not_integer_of_variable a h
  rw [eval_int_var, hi, if_neg (by simp), if_pos h, get_integer, hb]

/-! ## The claims -/

/-- C4 (as stated, refuted): the literal `2147483648` matches the integer rule and
denotes 2147483648, yet `evaluate` does not return that integer: `std::stoi` throws
`out_of_range`. -/
theorem literal_out_of_range_counterexample :
    regex_match "2147483648".toList integer = true ∧
      denotes "2147483648".toList = 2147483648 ∧
      (evaluate "2147483648".toList Store.empty).1 = .error .out_of_range ∧
      (evaluate "2147483648".toList Store.empty).1 ≠ .ok (denotes "2147483648".toList) := by
  decide

/-- C4 (amended): for every string `n` matching the integer rule `-?[0-9]+` whose decimal
value fits in a 32-bit signed `int`, `evaluate n` returns that value in every store and
leaves the store as it was. -/
theorem evaluate_literal (st : Store) (n : Str) (h : regex_match n integer = true)
    (hfit : inInt32 (denotes n)) : evaluate n st = (.ok (denotes n), st) := by
  rw [evaluate, if_pos h, stoi_literal n h, if_pos hfit]

theorem evaluate_literal_witness :
    evaluate "-0042".toList Store.empty = (.ok (-42), Store.empty) :=
  evaluate_literal Store.empty "-0042".toList (by decide) (by decide)

/-- C5: for every store and every variable name `v` that is not a key of the store,
`evaluate v` throws the message `error: v is undefined` and leaves the store unchanged;
in particular this is so for every variable name in the initial empty store. -/
theorem undefined_variable (st : Store) (v : Str) (hv : regex_match v variable_rx = true) :
    (st v = none → evaluate v st = (.error (.str (undefinedMsg v)), st)) ∧
      evaluate v Store.empty = (.error (.str (undefinedMsg v)), Store.empty) := by
  have hi := not_integer_of_variable v hv
  have key : ∀ s : Store, s v = none → evaluate v s = (.error (.str (undefinedMsg v)), s) := by
    intro s hs
    rw [evaluate, hi, if_neg (by simp), if_pos hv, get_integer, hs]
    rfl
  exact ⟨key st, key Store.empty rfl⟩

theorem undefined_variable_witness :
    evaluate "y1".toList (Store.empty.insert_or_assign "x".toList 3)
      = (.error (.str "error: y1 is undefined".toList),
          Store.empty.insert_or_assign "x".toList 3) :=
  (undefined_variable (Store.empty.insert_or_assign "x".toList 3) "y1".toList
    (by decide)).1 (by decide)

/-- C6: for every store and every line matching the assignment rule, the line is
handled by `assign_integer`, and if `evaluate` throws, the store after the call is the
store before the call. -/
theorem assignment_atomic_on_failure (st : Store) (line : Str) (e : Exn)
    (hcls : regex_match line assignment = true)
    (hfail : (evaluate line st).1 = .error e) :
    evaluate line st = assign_integer line st ∧ (evaluate line st).2 = st := by
  have heq := assignment_has_eq line hcls
  refine ⟨?_, evaluate_error_store line st e hfail⟩
  rw [evaluate, not_integer_of_eq line heq, not_variable_of_eq line heq, if_neg (by simp),
    if_neg (by simp), if_pos hcls]

theorem assignment_atomic_on_failure_witness :
    (evaluate "x=y+1".toList (Store.empty.insert_or_assign "x".toList 3)).2
      = Store.empty.insert_or_assign "x".toList 3 :=
  (assignment_atomic_on_failure (Store.empty.insert_or_assign "x".toList 3) "x=y+1".toList
    (.str "error: y is undefined".toList) (by decide) (by decide)).2

/-- C7: for every store and every line that does not match the assignment rule,
`evaluate` leaves the store unchanged, whatever its outcome; and every call of
`eval_no_assign`, `eval_int_var`, `integer_addition` and `integer_subtraction` leaves
the store unchanged. -/
theorem only_assignment_mutates (st : Store) :
    (∀ line, regex_match line assignment = false → (evaluate line st).2 = st) ∧
      (∀ r, (eval_no_assign r st).2 = st) ∧ (∀ r, (eval_int_var r st).2 = st) ∧
      (∀ input, (integer_addition input st).2 = st) ∧
      (∀ input, (integer_subtraction input st).2 = st) := by
  refine ⟨?_, fun r => eval_no_assign_store r st, fun r => eval_int_var_store r st,
    fun r => integer_addition_store r st, fun r => integer_subtraction_store r st⟩
  intro line hna
  unfold evaluate
  split
  · rfl
  · split
    · exact get_integer_store line st
    · rw [hna, if_neg (by simp)]
      split
      · exact integer_addition_store line st
      · split
        · exact integer_subtraction_store line st
        · rfl

theorem only_assignment_mutates_witness :
    (evaluate "x+1".toList (Store.empty.insert_or_assign "x".toList 3)).2
      = Store.empty.insert_or_assign "x".toList 3 :=
  (only_assignment_mutates (Store.empty.insert_or_assign "x".toList 3)).1 "x+1".toList
    (by decide)

theorem eval_no_assign_ok_expr (r : Str) (st : Store) (k : Int)
    (h : (eval_no_assign r st).1 = .ok k) :
    regex_match r integer = true ∨ regex_match r variable_rx = true ∨
      regex_match r addition = true ∨ regex_match r subtraction = true := by
  by_cases h1 : regex_match r integer = true
  · exact Or.inl h1
  by_cases h2 : regex_match r variable_rx = true
  · exact Or.inr (Or.inl h2)
  by_cases h3 : regex_match r addition = true
  · exact Or.inr (Or.inr (Or.inl h3))
  by_cases h4 : regex_match r subtraction = true
  · exact Or.inr (Or.inr (Or.inr h4))
  rw [eval_no_assign, if_neg h1, if_neg h2, if_neg h3, if_neg h4] at h
  cases h

/-- On `v=rhs` with no `=` in `v` and `rhs`, the two tokens are `v` and `rhs`. -/
theorem string_split_assignment (v rhs : Str) (hv : '=' ∉ v) (hrhs : '=' ∉ rhs) :
    string_split (v ++ '=' :: rhs) '=' = [v, rhs] := by
  rw [string_split_sep '=' v rhs hv, string_split_no_sep '=' rhs hrhs]

/-- C1: for every store, every variable name `v` and every right-hand side `rhs`
without `=` that `eval_no_assign` evaluates to `k` in that store, `evaluate` on `v=rhs`
returns `k` and leaves the store with `v` bound to `k` (inserted or overwritten, the
other names untouched), so that a following `evaluate v` returns `k`. -/
theorem assignment_then_lookup (st : Store) (v rhs : Str) (k : Int)
    (hv : regex_match v variable_rx = true) (hrhs : '=' ∉ rhs)
    (hk : (eval_no_assign rhs st).1 = .ok k) :
    evaluate (v ++ '=' :: rhs) st = (.ok k, st.insert_or_assign v k) ∧
      (evaluate (v ++ '=' :: rhs) st).2 v = some k ∧
      (evaluate v (evaluate (v ++ '=' :: rhs) st).2).1 = .ok k := by
  have hexpr := eval_no_assign_ok_expr rhs st k hk
  have hveq : '=' ∉ v := expr_no_eq v (Or.inr (Or.inl hv))
  have hline : '=' ∈ v ++ '=' :: rhs := by simp
  have hasg : regex_match (v ++ '=' :: rhs) assignment = true :=
    (mem_assignment _).2 ⟨v, rhs, rfl, hv, expr_ne_nil rhs hexpr,
      fun c hc => isChainChar_isDot c (chars_of_expr rhs hexpr c hc)⟩
  have hrun : eval_no_assign rhs st = (.ok k, st) :=
    Prod.ext hk (eval_no_assign_store rhs st)
  have hfirst : evaluate (v ++ '=' :: rhs) st = (.ok k, st.insert_or_assign v k) := by
    rw [evaluate, not_integer_of_eq _ hline, not_variable_of_eq _ hline, if_neg (by simp),
      if_neg (by simp), if_pos hasg, assign_integer, string_split_assignment v rhs hveq hrhs]
    simp only [List.getD_cons_succ, List.getD_cons_zero, hrun]
    split <;> rfl
  have hbound : (st.insert_or_assign v k) v = some k := by
    simp [Store.insert_or_assign]
  refine ⟨hfirst, ?_, ?_⟩
  · rw [hfirst]; exact hbound
  · rw [hfirst]
    simp only
    rw [evaluate, not_integer_of_variable v hv, if_neg (by simp), if_pos hv, get_integer, hbound]

theorem assignment_then_lookup_witness :
    evaluate "x=y+2".toList
        ((Store.empty.insert_or_assign "x".toList 1).insert_or_assign "y".toList 5)
      = (.ok 7, (((Store.empty.insert_or_assign "x".toList 1).insert_or_assign "y".toList 5
          ).insert_or_assign "x".toList 7)) :=
  (assignment_then_lookup
    ((Store.empty.insert_or_assign "x".toList 1).insert_or_assign "y".toList 5)
    "x".toList "y+2".toList 7 (by decide) (by decide) (by decide)).1

/-- C8 (the code at the failing input): `a=1=2` matches the assignment rule and its
right-hand side `1=2` contains `=`, yet `evaluate` returns 1 and binds `a` to 1 in the
empty store, because `assign_integer` splits on every `=` and reads only the second
token; and `a=b=1` with `b` unbound throws the undefined-variable message, not a
syntax error. -/
theorem chained_assignment_accepted :
    regex_match "a=1=2".toList assignment = true ∧
      (evaluate "a=1=2".toList Store.empty).1 = .ok 1 ∧
      (evaluate "a=1=2".toList Store.empty).2 "a".toList = some 1 ∧
      (evaluate "a=b=1".toList Store.empty).1 = .error (.str "error: b is undefined".toList) ∧
      (evaluate "a=b=1".toList (Store.empty.insert_or_assign "b".toList 7)).1 = .ok 7 := by
  decide

theorem takeWhile_append_stop (p : Char → Bool) (d : Char) (rhs : Str) (hd : p d = false) :
    ∀ v : Str, (∀ c ∈ v, p c = true) → (v ++ d :: rhs).takeWhile p = v
  | [], _ => by simp [List.takeWhile, hd]
  | x :: xs, h => by
    have hx := h x (List.mem_cons_self _ _)
    have ih := takeWhile_append_stop p d rhs hd xs (fun c hc => h c (List.mem_cons_of_mem _ hc))
    rw [List.cons_append, List.takeWhile_cons, if_pos hx, ih]

/-- In a line matching the assignment rule the text before the first `=` is a variable
name. -/
theorem assignment_beforeEq (line : Str) (h : regex_match line assignment = true) :
    regex_match (beforeEq line) variable_rx = true := by
  obtain ⟨v, rhs, rfl, hv, -, -⟩ := (mem_assignment line).1 h
  have hveq : '=' ∉ v := expr_no_eq v (Or.inr (Or.inl hv))
  have : beforeEq (v ++ '=' :: rhs) = v := by
    apply takeWhile_append_stop _ '=' rhs (by decide) v
    intro c hc
    have : c ≠ '=' := fun hce => hveq (hce ▸ hc)
    simpa using this
  rw [this]; exact hv

/-- C10: for every line that matches none of the rules integer, variable, assignment,
addition, subtraction, `evaluate` throws `syntax error` in every store and leaves the
store unchanged; the lines `""`, `"+"`, `"1+"`, `"=5"` and `"1=2"` match none of the
rules; and so does every line containing `=` whose text before the first `=` is not a
variable name. -/
theorem malformed_rejected :
    (∀ (st : Store) (line : Str), matchesNoRule line = true →
        evaluate line st = (.error (.str "syntax error".toList), st)) ∧
      (∀ line ∈ ["".toList, "+".toList, "1+".toList, "=5".toList, "1=2".toList],
        matchesNoRule line = true) ∧
      (∀ line : Str, '=' ∈ line → regex_match (beforeEq line) variable_rx = false →
        matchesNoRule line = true) := by
  refine ⟨?_, by decide, ?_⟩
  · intro st line h
    simp only [matchesNoRule, Bool.and_eq_true, Bool.not_eq_true'] at h
    obtain ⟨⟨⟨⟨h1, h2⟩, h3⟩, h4⟩, h5⟩ := h
    rw [evaluate, h1, h2, h3, h4, h5]
    simp
  · intro line heq hbefore
    have h3 : regex_match line assignment = false := by
      by_contra hc
      have := assignment_beforeEq line (by simpa using hc)
      rw [hbefore] at this
      cases this
    simp [matchesNoRule, not_integer_of_eq line heq, not_variable_of_eq line heq, h3,
      not_addition_of_eq line heq, not_subtraction_of_eq line heq]

theorem malformed_rejected_witness :
    evaluate "1x=2".toList (Store.empty.insert_or_assign "x".toList 3)
      = (.error (.str "syntax error".toList), Store.empty.insert_or_assign "x".toList 3) :=
  malformed_rejected.1 (Store.empty.insert_or_assign "x".toList 3) "1x=2".toList
    (malformed_rejected.2.2 "1x=2".toList (by decide) (by decide))

/-! ### Chains -/

theorem plus_subset_star (r : Regex) (w : Str) (h : w ∈ (Regex.plus r).lang) :
    w ∈ (Regex.star r).lang := by
  rw [show (Regex.star r).lang = KStar.kstar r.lang from rfl,
    ← Language.one_add_self_mul_kstar_eq_kstar, Language.mem_add]
  exact Or.inr h

theorem intercalate_cons_cons (c : Char) (a b : Str) (rest : List Str) :
    List.intercalate [c] (a :: b :: rest) = a ++ c :: List.intercalate [c] (b :: rest) := by
  simp [List.intercalate]

/-- Two or more strings of a pattern joined by a separator match `((r c)+ r)`. -/
theorem intercalate_mem_sep (r : Regex) (c : Char) :
    ∀ (a b : Str) (rest : List Str), (∀ x ∈ a :: b :: rest, x ∈ r.lang) →
      ∃ u t, List.intercalate [c] (a :: b :: rest) = u ++ t ∧
        u ∈ (Regex.plus (Regex.seq r (Regex.chr c))).lang ∧ t ∈ r.lang
  | a, b, [], h => by
    refine ⟨a ++ [c], b, by simp [List.intercalate], ?_, h b (by simp)⟩
    exact (Regex.mem_seq _ _ _).2 ⟨a ++ [c], [],
      (Regex.mem_seq _ _ _).2 ⟨a, [c], h a (by simp), (Regex.mem_chr c _).2 rfl, rfl⟩,
      Language.nil_mem_kstar _, by simp⟩
  | a, b, b' :: rest, h => by
    obtain ⟨u, t, e, hu, ht⟩ :=
      intercalate_mem_sep r c b b' rest (fun x hx => h x (List.mem_cons_of_mem _ hx))
    refine ⟨(a ++ [c]) ++ u, t, ?_, ?_, ht⟩
    · rw [intercalate_cons_cons, e]; simp
    · exact (Regex.mem_seq _ _ _).2 ⟨a ++ [c], u,
        (Regex.mem_seq _ _ _).2 ⟨a, [c], h a (by simp), (Regex.mem_chr c _).2 rfl, rfl⟩,
        plus_subset_star _ u hu, rfl⟩

theorem iv_no_plus (a : Str) (h : a ∈ iv.lang) : '+' ∉ a := by
  intro hm
  rcases Regex.chars_within _ _ iv_within a h '+' hm with h | h
  · exact isWord_ne_plus '+' h rfl
  · revert h; decide

theorem atomHasValue_iv (st : Store) (a : Str) (v : Int) (h : atomHasValue st a v) :
    a ∈ iv.lang := by
  rcases h with ⟨h, -, -⟩ | ⟨h, -⟩
  · exact (Regex.mem_alt _ _ a).2 (Or.inl ((regex_match_iff a _).1 h))
  · exact (Regex.mem_alt _ _ a).2 (Or.inr ((regex_match_iff a _).1 h))

theorem atomHasValue_eval (st : Store) (a : Str) (v : Int) (h : atomHasValue st a v) :
    eval_int_var a st = (.ok v, st) := by
  rcases h with ⟨h, hd, hfit⟩ | ⟨h, hb⟩
  · subst hd; exact eval_int_var_literal st a h hfit
  · exact eval_int_var_bound st a v h hb

theorem forall₂_exists_right {α β : Type} {R : α → β → Prop} :
    ∀ {l₁ : List α} {l₂ : List β}, List.Forall₂ R l₁ l₂ → ∀ x ∈ l₁, ∃ y, R x y
  | _, _, .nil, x, hx => by cases hx
  | _, _, .cons h t, x, hx => by
    rcases List.mem_cons.1 hx with rfl | hx
    · exact ⟨_, h⟩
    · exact forall₂_exists_right t x hx

theorem integer_mem_iv (w : Str) (h : regex_match w integer = true) : w ∈ iv.lang :=
  (Regex.mem_alt _ _ w).2 (Or.inl ((regex_match_iff w _).1 h))

theorem variable_mem_iv (w : Str) (h : regex_match w variable_rx = true) : w ∈ iv.lang :=
  (Regex.mem_alt _ _ w).2 (Or.inr ((regex_match_iff w _).1 h))

theorem not_integer_of_plus (w : Str) (h : '+' ∈ w) : regex_match w integer = false := by
  by_contra hc
  exact iv_no_plus w (integer_mem_iv w (by simpa using hc)) h

theorem not_variable_of_plus (w : Str) (h : '+' ∈ w) : regex_match w variable_rx = false := by
  by_contra hc
  exact iv_no_plus w (variable_mem_iv w (by simpa using hc)) h

theorem not_assignment_of_no_eq (w : Str) (h : '=' ∉ w) : regex_match w assignment = false := by
  by_contra hc
  exact h (assignment_has_eq w (by simpa using hc))

/-- C2: for every store and every sequence of two or more atoms, each an integer
literal that fits in an `int` or a variable bound in the store, `evaluate` on the atoms
joined by `+` returns the sum of the values of the atoms, provided every running sum
fits in an `int`; the store is unchanged. -/
theorem addition_chain_sum (st : Store) (atoms : List Str) (vals : List Int)
    (hlen : 2 ≤ atoms.length)
    (hatoms : List.Forall₂ (atomHasValue st) atoms vals)
    (hsums : ∀ j, j ≤ vals.length → inInt32 ((vals.take j).sum)) :
    evaluate (List.intercalate ['+'] atoms) st = (.ok vals.sum, st) := by
  obtain ⟨a, b, rest, rfl⟩ : ∃ a b rest, atoms = a :: b :: rest := by
    match atoms, hlen with
    | a :: b :: rest, _ => exact ⟨a, b, rest, rfl⟩
  have hiv : ∀ x ∈ a :: b :: rest, x ∈ iv.lang := by
    intro x hx
    obtain ⟨v, hv⟩ := forall₂_exists_right hatoms x hx
    exact atomHasValue_iv st x v hv
  have hsplit : string_split (List.intercalate ['+'] (a :: b :: rest)) '+' = a :: b :: rest :=
    string_split_intercalate '+' a (b :: rest) (fun x hx => iv_no_plus x (hiv x hx))
  obtain ⟨u, t, e, hu, ht⟩ := intercalate_mem_sep iv '+' a b rest hiv
  have hadd : regex_match (List.intercalate ['+'] (a :: b :: rest)) addition = true :=
    (regex_match_iff _ _).2 (by rw [e]; exact (Regex.mem_seq _ _ _).2 ⟨u, t, hu, ht, rfl⟩)
  have hplus : '+' ∈ List.intercalate ['+'] (a :: b :: rest) := by
    rw [intercalate_cons_cons]; simp
  have hasg := not_assignment_of_no_eq _ (expr_no_eq _ (Or.inr (Or.inr (Or.inl hadd))))
  have htok : eval_tokens (a :: b :: rest) [] st = (.ok vals, st) := by
    simpa using eval_tokens_ok _ vals st (hatoms.imp (atomHasValue_eval st)) []
  rw [evaluate, not_integer_of_plus _ hplus, not_variable_of_plus _ hplus, hasg,
    if_neg (by simp), if_neg (by simp), if_neg (by simp), if_pos hadd, integer_addition,
    hsplit, htok]
  simp only
  rw [vector_int_sum_eq vals hsums]

theorem addition_chain_sum_witness :
    evaluate "a+1".toList (Store.empty.insert_or_assign "a".toList 5)
      = (.ok 6, Store.empty.insert_or_assign "a".toList 5) := by
  have h := addition_chain_sum (Store.empty.insert_or_assign "a".toList 5)
    ["a".toList, "1".toList] [5, 1] (by decide)
    (.cons (Or.inr (by decide)) (.cons (Or.inl (by decide)) .nil)) (by decide)
  exact h

theorem foldl_sub_eq (rest : List Int) :
    ∀ v0 : Int, rest.foldl (fun x y => x - y) v0 = v0 + (rest.map (fun y => -y)).sum := by
  induction rest with
  | nil => intro v0; simp
  | cons x xs ih => intro v0; rw [List.foldl_cons, ih]; simp; ring

theorem map_ok_forall₂ (st : Store) :
    ∀ (toks : List Str) (vals : List Int),
      toks.map (fun t => (eval_int_var t st).1) = vals.map Except.ok →
      List.Forall₂ (fun t v => eval_int_var t st = (.ok v, st)) toks vals
  | [], [], _ => .nil
  | [], _ :: _, h => by simp at h
  | _ :: _, [], h => by simp at h
  | t :: toks, v :: vals, h => by
    simp only [List.map_cons, List.cons.injEq] at h
    exact .cons (Prod.ext h.1 (eval_int_var_store t st)) (map_ok_forall₂ st toks vals h.2)

/-- C3: whenever the tokens of the input split on `-` evaluate through `eval_int_var` to
`v0, v1, ..., vk`, `integer_subtraction` returns `v0 - v1 - ... - vk` associated to the
left, provided no negated operand and no running difference leaves the 32-bit signed
range. -/
theorem integer_subtraction_left_assoc (st : Store) (input : Str) (v0 : Int)
    (rest : List Int)
    (htok : (string_split input '-').map (fun t => (eval_int_var t st).1)
      = (v0 :: rest).map Except.ok)
    (hneg : ∀ v ∈ rest, inInt32 (-v))
    (hdiff : ∀ j, j ≤ rest.length → inInt32 ((rest.take j).foldl (fun x y => x - y) v0)) :
    integer_subtraction input st = (.ok (rest.foldl (fun x y => x - y) v0), st) := by
  have hrun : eval_tokens (string_split input '-') [] st = (.ok (v0 :: rest), st) := by
    simpa using eval_tokens_ok _ _ st (map_ok_forall₂ st _ _ htok) []
  have hnegl : negate_from_1 (v0 :: rest) = v0 :: rest.map (fun y => -y) := by
    simp only [negate_from_1, List.cons.injEq, true_and]
    exact List.map_congr_left (fun y hy => wrap32_of_inInt32 _ (hneg y hy))
  have hsum : vector_int_sum (v0 :: rest.map (fun y => -y))
      = (v0 :: rest.map (fun y => -y)).sum := by
    apply vector_int_sum_eq
    intro j hj
    cases j with
    | zero => simp [inInt32]
    | succ j =>
      have hj' : j ≤ rest.length := by simpa using hj
      have := hdiff j hj'
      rw [foldl_sub_eq] at this
      simpa [List.map_take] using this
  rw [integer_subtraction, hrun]
  simp only
  rw [hnegl, hsum, foldl_sub_eq, List.sum_cons]

theorem integer_subtraction_left_assoc_witness :
    integer_subtraction "10-3-2".toList Store.empty = (.ok 5, Store.empty) :=
  integer_subtraction_left_assoc Store.empty "10-3-2".toList 10 [3, 2] (by decide)
    (by decide) (by decide)

theorem chain_of_no_minus (l : Str) (h : ∀ e ∈ l, e ≠ '-') :
    ∀ c, List.Chain (fun d e => ¬ wordThenMinus d e) c l := by
  induction l with
  | nil => intro c; exact .nil
  | cons x xs ih =>
    intro c
    exact .cons (fun hw => h x (List.mem_cons_self _ _) hw.2)
      (ih (fun e he => h e (List.mem_cons_of_mem _ he)) x)

theorem iv_chain' (a : Str) (h : a ∈ iv.lang) :
    List.Chain' (fun d e => ¬ wordThenMinus d e) a := by
  obtain ⟨c, rest, rfl, -, hrest, -⟩ := iv_shape a h
  exact chain_of_no_minus rest (fun e he => isWord_ne_minus e (hrest e he)) c

theorem group_chain' (c : Char) (hc : c ≠ '-') (y : Str)
    (h : y ∈ (Regex.seq iv (Regex.chr c)).lang) :
    List.Chain' (fun d e => ¬ wordThenMinus d e) y ∧ y.getLast? = some c := by
  obtain ⟨a, b, ha, hb, rfl⟩ := (Regex.mem_seq _ _ y).1 h
  rw [(Regex.mem_chr c b).1 hb]
  refine ⟨List.chain'_append.2 ⟨iv_chain' a ha, List.chain'_singleton _, ?_⟩, by simp⟩
  intro x _ y hy hw
  simp at hy
  exact hc (hy ▸ hw.2)

theorem groups_chain' (c : Char) (hc : c ≠ '-') (hw : isWord c = false) (t : Str)
    (ht : List.Chain' (fun d e => ¬ wordThenMinus d e) t) :
    ∀ S : List Str, (∀ y ∈ S, y ∈ (Regex.seq iv (Regex.chr c)).lang) →
      List.Chain' (fun d e => ¬ wordThenMinus d e) (S.flatten ++ t)
  | [], _ => by simpa using ht
  | y :: S, h => by
    obtain ⟨hy, hlast⟩ := group_chain' c hc y (h y (List.mem_cons_self _ _))
    have ih := groups_chain' c hc hw t ht S (fun z hz => h z (List.mem_cons_of_mem _ hz))
    rw [List.flatten_cons, List.append_assoc]
    refine List.chain'_append.2 ⟨hy, ih, ?_⟩
    intro x hx z _ hwz
    rw [hlast] at hx
    simp at hx
    have h1 := hwz.1
    rw [← hx, hw] at h1
    exact Bool.noConfusion h1

/-- A line matching the addition rule has no word character directly followed by `-`. -/
theorem addition_chain' (w : Str) (h : regex_match w addition = true) :
    List.Chain' (fun d e => ¬ wordThenMinus d e) w := by
  obtain ⟨u, t, hu, ht, rfl⟩ := (Regex.mem_seq _ _ w).1 ((regex_match_iff w _).1 h)
  obtain ⟨S, rfl, hS⟩ := (Regex.mem_star _ u).1 (plus_subset_star _ u hu)
  exact groups_chain' '+' (by decide) (by decide) t (iv_chain' t ht) S hS

theorem isAtom_iv (a : Str) (h : isAtom a) : a ∈ iv.lang :=
  h.elim (integer_mem_iv a) (variable_mem_iv a)

theorem chain_chars (a0 : Str) (rest : List (Char × Str)) (P : Char → Prop)
    (h0 : ∀ c ∈ a0, P c) (hrest : ∀ p ∈ rest, P p.1 ∧ ∀ c ∈ p.2, P c) :
    ∀ c ∈ chain a0 rest, P c := by
  induction rest generalizing a0 with
  | nil => simpa [chain] using h0
  | cons p rest ih =>
    obtain ⟨op, a⟩ := p
    intro c hc
    simp only [chain, List.mem_append, List.mem_cons] at hc
    rcases hc with hc | rfl | hc
    · exact h0 c hc
    · exact (hrest (c, a) (List.mem_cons_self _ _)).1
    · exact ih a (hrest (op, a) (List.mem_cons_self _ _)).2
        (fun q hq => hrest q (List.mem_cons_of_mem _ hq)) c hc

theorem chain_mem_op (a0 : Str) (rest : List (Char × Str)) (op : Char)
    (h : ∃ p ∈ rest, p.1 = op) : op ∈ chain a0 rest := by
  induction rest generalizing a0 with
  | nil => obtain ⟨p, hp, -⟩ := h; cases hp
  | cons q rest ih =>
    obtain ⟨o, a⟩ := q
    obtain ⟨p, hp, hop⟩ := h
    simp only [chain, List.mem_append, List.mem_cons]
    rcases List.mem_cons.1 hp with rfl | hp
    · exact Or.inr (Or.inl hop.symm)
    · exact Or.inr (Or.inr (ih a ⟨p, hp, hop⟩))

/-- A chain of atoms with a joining `-` has a word character directly followed by `-`. -/
theorem chain_not_chain' (a0 : Str) (rest : List (Char × Str)) (h0 : isAtom a0)
    (hrest : ∀ p ∈ rest, isAtom p.2) (hminus : ∃ p ∈ rest, p.1 = '-') :
    ¬ List.Chain' (fun d e => ¬ wordThenMinus d e) (chain a0 rest) := by
  induction rest generalizing a0 with
  | nil => obtain ⟨p, hp, -⟩ := hminus; cases hp
  | cons q rest ih =>
    obtain ⟨o, a⟩ := q
    intro hch
    rw [chain] at hch
    obtain ⟨-, hright, hjoin⟩ := List.chain'_append.1 hch
    by_cases ho : o = '-'
    · obtain ⟨c, r, hc, -, -, hlast⟩ := iv_shape a0 (isAtom_iv a0 h0)
      have hne : a0 ≠ [] := by rw [hc]; simp
      have hmem : a0.getLast hne ∈ a0.getLast? := by
        rw [List.getLast?_eq_getLast _ hne]; rfl
      exact hjoin _ hmem o (by simp) ⟨hlast _ hmem, ho⟩
    · obtain ⟨p, hp, hop⟩ := hminus
      rcases List.mem_cons.1 hp with rfl | hp
      · exact ho hop
      · exact ih a (hrest (o, a) (List.mem_cons_self _ _))
          (fun q hq => hrest q (List.mem_cons_of_mem _ hq)) ⟨p, hp, hop⟩ hright.tail

/-- C9: for every chain of atoms (integer literals or variable names) joined by
operators `+` or `-` in which both operators occur as a joining operator, the line
matches neither the addition nor the subtraction rule, and `evaluate` throws
`syntax error` in every store, leaving the store unchanged. -/
theorem mixed_chain_rejected (st : Store) (a0 : Str) (rest : List (Char × Str))
    (h0 : isAtom a0) (hrest : ∀ p ∈ rest, (p.1 = '+' ∨ p.1 = '-') ∧ isAtom p.2)
    (hplus : ∃ p ∈ rest, p.1 = '+') (hminus : ∃ p ∈ rest, p.1 = '-') :
    regex_match (chain a0 rest) addition = false ∧
      regex_match (chain a0 rest) subtraction = false ∧
      evaluate (chain a0 rest) st = (.error (.str "syntax error".toList), st) := by
  have hin : '+' ∈ chain a0 rest := chain_mem_op a0 rest '+' hplus
  have hsub : regex_match (chain a0 rest) subtraction = false := by
    by_contra hc
    have hc' : regex_match (chain a0 rest) subtraction = true := by simpa using hc
    rcases Regex.chars_within _ _ subtraction_within _ ((regex_match_iff _ _).1 hc') '+' hin
      with h | h
    · exact isWord_ne_plus '+' h rfl
    · revert h; decide
  have hadd : regex_match (chain a0 rest) addition = false := by
    by_contra hc
    exact chain_not_chain' a0 rest h0 (fun p hp => (hrest p hp).2) hminus
      (addition_chain' _ (by simpa using hc))
  have hchars : ∀ c ∈ chain a0 rest, isChainChar c := by
    apply chain_chars a0 rest isChainChar
    · exact chars_of_expr a0 (h0.elim Or.inl (fun h => Or.inr (Or.inl h)))
    · intro p hp
      obtain ⟨hop, hat⟩ := hrest p hp
      refine ⟨hop.elim (fun h => Or.inr (Or.inr h)) (fun h => Or.inr (Or.inl h)), ?_⟩
      exact chars_of_expr p.2 (hat.elim Or.inl (fun h => Or.inr (Or.inl h)))
  have hasg := not_assignment_of_no_eq (chain a0 rest)
    (fun hm => isChainChar_ne_eq '=' (hchars '=' hm) rfl)
  refine ⟨hadd, hsub, ?_⟩
  rw [evaluate, not_integer_of_plus _ hin, not_variable_of_plus _ hin, hasg, hadd, hsub]
  simp

theorem mixed_chain_rejected_witness :
    evaluate "a+-2-b".toList
        ((Store.empty.insert_or_assign "a".toList 1).insert_or_assign "b".toList 2)
      = (.error (.str "syntax error".toList),
          (Store.empty.insert_or_assign "a".toList 1).insert_or_assign "b".toList 2) :=
  (mixed_chain_rejected
    ((Store.empty.insert_or_assign "a".toList 1).insert_or_assign "b".toList 2)
    "a".toList [('+', "-2".toList), ('-', "b".toList)] (Or.inr (by decide))
    (by
      intro p hp
      simp only [List.mem_cons, List.mem_singleton, List.not_mem_nil, or_false] at hp
      rcases hp with rfl | rfl
      · exact ⟨Or.inl rfl, Or.inl (by decide)⟩
      · exact ⟨Or.inr rfl, Or.inr (by decide)⟩)
    ⟨_, List.mem_cons_self _ _, rfl⟩
    ⟨_, List.mem_cons_of_mem _ (List.mem_cons_self _ _), rfl⟩).2.2

/-! ## `string_split` as a split on every separator -/

theorem first_occurrence (c : Char) :
    ∀ s : Str, c ∉ s ∨ ∃ a rest, s = a ++ c :: rest ∧ c ∉ a
  | [] => Or.inl (by simp)
  | x :: xs => by
    by_cases hx : x = c
    · exact Or.inr ⟨[], xs, by simp [hx], by simp⟩
    · rcases first_occurrence c xs with h | ⟨a, rest, rfl, ha⟩
      · exact Or.inl (by simp [h, Ne.symm hx])
      · exact Or.inr ⟨x :: a, rest, rfl, by simp [ha, Ne.symm hx]⟩

theorem string_split_ne_nil (s : Str) (c : Char) : string_split s c ≠ [] := by
  rcases first_occurrence c s with h | ⟨a, rest, rfl, ha⟩
  · rw [string_split_no_sep c s h]; simp
  · rw [string_split_sep c a rest ha]; simp

theorem string_split_props (c : Char) :
    ∀ (n : Nat) (s : Str), s.length ≤ n →
      (string_split s c).length = s.count c + 1 ∧ (∀ t ∈ string_split s c, c ∉ t) ∧
        List.intercalate [c] (string_split s c) = s
  | 0, s, hn => by
    have hs : s = [] := List.length_eq_zero.1 (Nat.le_zero.1 hn)
    subst hs
    rw [string_split_no_sep c [] (by simp)]
    simp [List.intercalate]
  | n + 1, s, hn => by
    rcases first_occurrence c s with h | ⟨a, rest, rfl, ha⟩
    · rw [string_split_no_sep c s h]
      refine ⟨by simp [List.count_eq_zero_of_not_mem h], ?_, by simp [List.intercalate]⟩
      intro t ht
      simp at ht
      rw [ht]; exact h
    · have hlen : rest.length ≤ n := by
        simp only [List.length_append, List.length_cons] at hn
        omega
      obtain ⟨h1, h2, h3⟩ := string_split_props c n rest hlen
      rw [string_split_sep c a rest ha]
      refine ⟨?_, ?_, ?_⟩
      · rw [List.length_cons, h1]
        simp [List.count_append, List.count_eq_zero_of_not_mem ha]
      · intro t ht
        rcases List.mem_cons.1 ht with rfl | ht
        · exact ha
        · exact h2 t ht
      · cases hT : string_split rest c with
        | nil => exact absurd hT (string_split_ne_nil rest c)
        | cons b T =>
          rw [intercalate_cons_cons, ← hT, h3]

/-- The first token is the text before the first separator. -/
theorem string_split_head (s : Str) (c : Char) :
    (string_split s c).getD 0 [] = s.takeWhile (fun x => x != c) := by
  rcases first_occurrence c s with h | ⟨a, rest, rfl, ha⟩
  · rw [string_split_no_sep c s h]
    symm
    apply List.takeWhile_eq_self_iff.2
    intro x hx
    have : x ≠ c := fun hxc => h (hxc ▸ hx)
    simpa using this
  · rw [string_split_sep c a rest ha]
    symm
    apply takeWhile_append_stop _ c rest (by simp) a
    intro x hx
    have : x ≠ c := fun hxc => ha (hxc ▸ hx)
    simpa using this

theorem string_split_trailing (c : Char) :
    ∀ (n : Nat) (s : Str), s.length ≤ n →
      string_split (s ++ [c]) c = string_split s c ++ [[]]
  | 0, s, hn => by
    have hs : s = [] := List.length_eq_zero.1 (Nat.le_zero.1 hn)
    subst hs
    rw [string_split_no_sep c [] (by simp)]
    exact string_split_sep c [] [] (by simp)
  | n + 1, s, hn => by
    rcases first_occurrence c s with h | ⟨a, rest, rfl, ha⟩
    · rw [string_split_no_sep c s h, string_split_sep c s [] h,
        string_split_no_sep c [] (by simp)]
      rfl
    · have hlen : rest.length ≤ n := by
        simp only [List.length_append, List.length_cons] at hn
        omega
      have e : a ++ c :: rest ++ [c] = a ++ c :: (rest ++ [c]) := by simp
      rw [e, string_split_sep c a _ ha, string_split_sep c a rest ha,
        string_split_trailing c n rest hlen]
      rfl

/-- C19: for every string `s` and character `c`, `string_split s c` is a non-empty list
of exactly (number of occurrences of `c` in `s`) + 1 tokens, no token contains `c`, and
joining the tokens with `c` gives `s` back; so the empty string splits into the single
empty token and a leading, trailing or doubled separator yields an empty token. -/
theorem string_split_like_js (s : Str) (c : Char) :
    string_split s c ≠ [] ∧ (string_split s c).length = s.count c + 1 ∧
      (∀ t ∈ string_split s c, c ∉ t) ∧ List.intercalate [c] (string_split s c) = s ∧
      string_split [] c = [[]] ∧ string_split (c :: s) c = [] :: string_split s c ∧
      string_split (s ++ [c]) c = string_split s c ++ [[]] := by
  obtain ⟨h1, h2, h3⟩ := string_split_props c s.length s (le_refl _)
  refine ⟨string_split_ne_nil s c, h1, h2, h3, string_split_no_sep c [] (by simp),
    string_split_sep c [] s (by simp), string_split_trailing c s.length s (le_refl _)⟩

/-! ## Subtraction chains and white space: the code at the failing inputs -/

/-- C11 (the code at the failing input): `1--2` and `-1-2` match the subtraction rule,
their split on `-` has an empty token, and `evaluate` throws
`syntax error from eval_int_var` on them; the addition path handles the same negative
literal: `1+-2` evaluates to -1. -/
theorem subtraction_split_empty_token :
    regex_match "1--2".toList subtraction = true ∧
      string_split "1--2".toList '-' = ["1".toList, [], "2".toList] ∧
      (evaluate "1--2".toList Store.empty).1
        = .error (.str "syntax error from eval_int_var".toList) ∧
      regex_match "-1-2".toList subtraction = true ∧
      string_split "-1-2".toList '-' = [[], "1".toList, "2".toList] ∧
      (evaluate "-1-2".toList Store.empty).1
        = .error (.str "syntax error from eval_int_var".toList) ∧
      (evaluate "1+-2".toList Store.empty).1 = .ok (-1) := by
  decide

/-- C12 (the code at the failing input): on `1  +2`, with two adjacent blanks,
`trim_whitespace` leaves `1 +2`, which still has a blank, so the turn of `main` throws
`syntax error` where the line without white space evaluates to 3; on `1+2 `, with a
trailing blank, the iterator leaves the string; on `x = 1 + 2` the result is `x=1+2`. -/
theorem trim_whitespace_skips_after_erase :
    trim_whitespace "1  +2".toList = some "1 +2".toList ∧
      withoutWhitespace "1  +2".toList = "1+2".toList ∧
      (main_turn "1  +2".toList Store.empty).map (fun o => o.1)
        = some (.error (.str "syntax error".toList)) ∧
      (main_turn "1+2".toList Store.empty).map (fun o => o.1) = some (.ok 3) ∧
      trim_whitespace "1+2 ".toList = none ∧
      trim_whitespace "x = 1 + 2".toList = some "x=1+2".toList := by
  decide

/-! ## The five rules are mutually exclusive -/

/-- A line of a separator chain starts with an atom followed by the separator. -/
theorem sep_chain_first (r : Regex) (c : Char) (w : Str)
    (h : w ∈ (Regex.seq (Regex.plus (Regex.seq r (Regex.chr c))) r).lang) :
    ∃ a rest, a ∈ r.lang ∧ w = a ++ c :: rest := by
  obtain ⟨u, t, hu, -, rfl⟩ := (Regex.mem_seq _ _ w).1 h
  obtain ⟨x, y, hx, -, rfl⟩ := (Regex.mem_seq _ _ u).1 hu
  obtain ⟨a, b, ha, hb, rfl⟩ := (Regex.mem_seq _ _ x).1 hx
  rw [(Regex.mem_chr c b).1 hb]
  exact ⟨a, y ++ t, ha, by simp⟩

theorem addition_has_plus (w : Str) (h : regex_match w addition = true) : '+' ∈ w := by
  obtain ⟨a, rest, -, rfl⟩ := sep_chain_first iv '+' w ((regex_match_iff w _).1 h)
  simp

theorem subtraction_minus_in_tail (w : Str) (h : regex_match w subtraction = true) :
    '-' ∈ w.tail := by
  obtain ⟨a, rest, ha, rfl⟩ := sep_chain_first iv '-' w ((regex_match_iff w _).1 h)
  obtain ⟨c, r, rfl, -, -, -⟩ := iv_shape a ha
  simp

theorem subtraction_no_plus (w : Str) (h : regex_match w subtraction = true) : '+' ∉ w := by
  intro hm
  rcases Regex.chars_within _ _ subtraction_within w ((regex_match_iff w _).1 h) '+' hm
    with h | h
  · exact isWord_ne_plus '+' h rfl
  · revert h; decide

theorem integer_tail_no_minus (w : Str) (h : regex_match w integer = true) : '-' ∉ w.tail := by
  intro hm
  have hd : ∀ d ∈ w.tail, isDigit d = true := by
    obtain ⟨ds, -, hall, hw | hw⟩ := (mem_int_ w).1 ((regex_match_iff w _).1 h) <;> rw [hw]
    · exact fun d hd => hall d (List.mem_of_mem_tail hd)
    · exact fun d hd => hall d hd
  exact isWord_ne_minus '-' (isWord_of_isDigit '-' (hd '-' hm)) rfl

theorem variable_no_minus (w : Str) (h : regex_match w variable_rx = true) : '-' ∉ w := by
  intro hm
  exact isWord_ne_minus '-'
    (Regex.chars_within _ _ var_within w ((regex_match_iff w _).1 h) '-' hm) rfl

/-- No line matches two of the five rules. -/
theorem rules_pairwise (s : Str) :
    ¬ (regex_match s integer = true ∧ regex_match s variable_rx = true) ∧
      ¬ (regex_match s integer = true ∧ regex_match s assignment = true) ∧
      ¬ (regex_match s integer = true ∧ regex_match s addition = true) ∧
      ¬ (regex_match s integer = true ∧ regex_match s subtraction = true) ∧
      ¬ (regex_match s variable_rx = true ∧ regex_match s assignment = true) ∧
      ¬ (regex_match s variable_rx = true ∧ regex_match s addition = true) ∧
      ¬ (regex_match s variable_rx = true ∧ regex_match s subtraction = true) ∧
      ¬ (regex_match s assignment = true ∧ regex_match s addition = true) ∧
      ¬ (regex_match s assignment = true ∧ regex_match s subtraction = true) ∧
      ¬ (regex_match s addition = true ∧ regex_match s subtraction = true) := by
  refine ⟨?_, ?_, ?_, ?_, ?_, ?_, ?_, ?_, ?_, ?_⟩
  · rintro ⟨h1, h2⟩
    rw [not_integer_of_variable s h2] at h1; cases h1
  · rintro ⟨h1, h2⟩
    rw [not_integer_of_eq s (assignment_has_eq s h2)] at h1; cases h1
  · rintro ⟨h1, h2⟩
    rw [not_integer_of_plus s (addition_has_plus s h2)] at h1; cases h1
  · rintro ⟨h1, h2⟩
    exact integer_tail_no_minus s h1 (subtraction_minus_in_tail s h2)
  · rintro ⟨h1, h2⟩
    rw [not_variable_of_eq s (assignment_has_eq s h2)] at h1; cases h1
  · rintro ⟨h1, h2⟩
    rw [not_variable_of_plus s (addition_has_plus s h2)] at h1; cases h1
  · rintro ⟨h1, h2⟩
    exact variable_no_minus s h1 (List.mem_of_mem_tail (subtraction_minus_in_tail s h2))
  · rintro ⟨h1, h2⟩
    rw [not_addition_of_eq s (assignment_has_eq s h1)] at h2; cases h2
  · rintro ⟨h1, h2⟩
    rw [not_subtraction_of_eq s (assignment_has_eq s h1)] at h2; cases h2
  · rintro ⟨h1, h2⟩
    exact subtraction_no_plus s h2 (addition_has_plus s h1)

theorem belongs_unique (s : Str) (c1 c2 : Category)
    (h1 : belongs s c1 = true) (h2 : belongs s c2 = true) : c1 = c2 := by
  obtain ⟨p1, p2, p3, p4, p5, p6, p7, p8, p9, p10⟩ := rules_pairwise s
  cases c1 <;> cases c2 <;>
    simp only [belongs, matchesNoRule, Bool.and_eq_true, Bool.not_eq_true'] at h1 h2 <;>
    first
    | rfl
    | (exfalso; simp_all)

theorem belongs_exists (s : Str) : ∃ c, belongs s c = true := by
  by_cases h1 : regex_match s integer = true
  · exact ⟨.Integer, h1⟩
  by_cases h2 : regex_match s variable_rx = true
  · exact ⟨.Variable, h2⟩
  by_cases h3 : regex_match s assignment = true
  · exact ⟨.Assignment, h3⟩
  by_cases h4 : regex_match s addition = true
  · exact ⟨.AdditionChain, h4⟩
  by_cases h5 : regex_match s subtraction = true
  · exact ⟨.SubtractionChain, h5⟩
  exact ⟨.Invalid, by simp [belongs, matchesNoRule, h1, h2, h3, h4, h5]⟩

theorem evaluate_eq_dispatch (s : Str) (st : Store) :
    evaluate s st = dispatch evaluateOrder s st := rfl

theorem dispatch_of_belongs (s : Str) (st : Store) (c : Category) (hc : belongs s c = true) :
    ∀ order : List Category, c ∈ order → dispatch order s st = branch c s st
  | [], h => by cases h
  | c' :: cs, h => by
    by_cases hc' : belongs s c' = true
    · rw [dispatch, if_pos hc', belongs_unique s c' c hc' hc]
    · rw [dispatch, if_neg hc']
      rcases List.mem_cons.1 h with rfl | h
      · exact absurd hc hc'
      · exact dispatch_of_belongs s st c hc cs h

theorem dispatch_of_none (s : Str) (st : Store) :
    ∀ order : List Category, (∀ c ∈ order, belongs s c = false) →
      dispatch order s st = (.error (.str "syntax error".toList), st)
  | [], _ => rfl
  | c :: cs, h => by
    rw [dispatch, h c (List.mem_cons_self _ _), if_neg (by simp)]
    exact dispatch_of_none s st cs (fun d hd => h d (List.mem_cons_of_mem _ hd))

/-- C13: for every string at most one of the five rules matches, so the string
belongs to exactly one of the six categories, and testing the five rules in any order
takes the same branch as `evaluate`. -/
theorem classification_exclusive :
    (∀ (s : Str) (c1 c2 : Category), belongs s c1 = true → belongs s c2 = true → c1 = c2) ∧
      (∀ s : Str, ∃ c, belongs s c = true) ∧
      (∀ (order : List Category) (s : Str) (st : Store), order.Perm evaluateOrder →
        dispatch order s st = evaluate s st) := by
  refine ⟨belongs_unique, belongs_exists, ?_⟩
  intro order s st hperm
  rw [evaluate_eq_dispatch]
  by_cases h : ∃ c ∈ evaluateOrder, belongs s c = true
  · obtain ⟨c, hmem, hc⟩ := h
    rw [dispatch_of_belongs s st c hc order (hperm.mem_iff.2 hmem),
      dispatch_of_belongs s st c hc evaluateOrder hmem]
  · have hnone : ∀ c ∈ evaluateOrder, belongs s c = false := by
      intro c hc
      by_contra hb
      exact h ⟨c, hc, by simpa using hb⟩
    rw [dispatch_of_none s st order (fun c hc => hnone c (hperm.mem_iff.1 hc)),
      dispatch_of_none s st evaluateOrder hnone]

theorem classification_exclusive_witness :
    dispatch [.SubtractionChain, .AdditionChain, .Assignment, .Variable, .Integer]
        "x=1+-2".toList Store.empty
      = evaluate "x=1+-2".toList Store.empty :=
  classification_exclusive.2.2
    [.SubtractionChain, .AdditionChain, .Assignment, .Variable, .Integer]
    "x=1+-2".toList Store.empty (List.reverse_perm evaluateOrder)

/-! ## Sessions: the store after a sequence of lines -/

/-- A line of the assignment rule is handled by `assign_integer`. -/
theorem evaluate_assignment_branch (line : Str) (st : Store)
    (h : regex_match line assignment = true) : evaluate line st = assign_integer line st := by
  have heq := assignment_has_eq line h
  rw [evaluate, not_integer_of_eq line heq, not_variable_of_eq line heq, if_neg (by simp),
    if_neg (by simp), if_pos h]

/-- The function `assign_integer` in one step: the outcome of `eval_no_assign` on the
second token decides. -/
theorem assign_integer_eq (input : Str) (st : Store) :
    assign_integer input st =
      match (eval_no_assign ((string_split input '=').getD 1 []) st).1 with
      | .error e => (.error e, st)
      | .ok rhs => (.ok rhs, st.insert_or_assign ((string_split input '=').getD 0 []) rhs) := by
  have hs := eval_no_assign_store ((string_split input '=').getD 1 []) st
  unfold assign_integer
  simp only
  generalize eval_no_assign ((string_split input '=').getD 1 []) st = p at hs ⊢
  obtain ⟨r, s'⟩ := p
  simp only at hs
  subst hs
  cases r with
  | error e => rfl
  | ok rhs =>
    simp only
    split <;> rfl

/-- A successful assignment binds the name before the first `=` to the value returned. -/
theorem evaluate_assignment_store (line : Str) (st : Store) (k : Int)
    (h : regex_match line assignment = true) (hk : (evaluate line st).1 = .ok k) :
    (evaluate line st).2 = st.insert_or_assign (beforeEq line) k := by
  have hhead : (string_split line '=').getD 0 [] = beforeEq line := string_split_head line '='
  rw [evaluate_assignment_branch line st h, assign_integer_eq] at hk ⊢
  cases hr : (eval_no_assign ((string_split line '=').getD 1 []) st).1 with
  | error e => rw [hr] at hk; cases hk
  | ok rhs =>
    rw [hr] at hk
    simp only at hk ⊢
    rw [Except.ok.inj hk, hhead]

/-- Off the assignment rule `evaluate` returns the store it was given. -/
theorem evaluate_not_assignment_store (line : Str) (st : Store)
    (hna : regex_match line assignment = false) : (evaluate line st).2 = st := by
  unfold evaluate
  split
  · rfl
  · split
    · exact get_integer_store line st
    · rw [hna, if_neg (by simp)]
      split
      · exact integer_addition_store line st
      · split
        · exact integer_subtraction_store line st
        · rfl

/-- The store `evaluate` leaves, in every case. -/
theorem evaluate_store (line : Str) (st : Store) :
    (evaluate line st).2 =
      match regex_match line assignment, (evaluate line st).1 with
      | true, .ok k => st.insert_or_assign (beforeEq line) k
      | _, _ => st := by
  cases ha : regex_match line assignment with
  | false =>
    exact evaluate_not_assignment_store line st ha
  | true =>
    cases hr : (evaluate line st).1 with
    | error e => exact evaluate_error_store line st e hr
    | ok k => exact evaluate_assignment_store line st k ha hr

theorem foldl_last_append (name : Str) (l1 l2 : List (Str × Int)) (acc : Option Int) :
    (l1 ++ l2).foldl (fun acc e => if e.1 = name then some e.2 else acc) acc
      = l2.foldl (fun acc e => if e.1 = name then some e.2 else acc)
          (l1.foldl (fun acc e => if e.1 = name then some e.2 else acc) acc) :=
  List.foldl_append _ _ _ _

/-- The binding of a name after a session is its binding before, overwritten by the
successful assignments to it in order. -/
theorem run_session_eq_log (name : Str) :
    ∀ (lines : List Str) (st : Store),
      run_session lines st name
        = (assignmentLog lines st).foldl (fun acc e => if e.1 = name then some e.2 else acc)
            (st name)
  | [], st => rfl
  | line :: rest, st => by
    rw [run_session, assignmentLog, foldl_last_append, run_session_eq_log name rest]
    congr 1
    rw [evaluate_store line st]
    cases regex_match line assignment with
    | false => rfl
    | true =>
      cases (evaluate line st).1 with
      | error e => rfl
      | ok k =>
        simp only [List.foldl_cons, List.foldl_nil, Store.insert_or_assign]
        by_cases hn : name = beforeEq line
        · rw [if_pos hn, if_pos hn.symm]
        · rw [if_neg hn, if_neg (fun h => hn h.symm)]

theorem foldl_last_ne_none (name : Str) :
    ∀ (log : List (Str × Int)) (acc : Option Int),
      log.foldl (fun acc e => if e.1 = name then some e.2 else acc) acc ≠ none ↔
        acc ≠ none ∨ ∃ k, (name, k) ∈ log
  | [], acc => by simp
  | e :: log, acc => by
    rw [List.foldl_cons, foldl_last_ne_none name log]
    obtain ⟨n, k⟩ := e
    by_cases hn : n = name
    · subst hn
      simp only [if_true, ne_eq, reduceCtorEq, not_false_eq_true, true_or, true_iff]
      exact Or.inr ⟨k, List.mem_cons_self _ _⟩
    · simp only [hn, if_false, List.mem_cons, Prod.mk.injEq]
      constructor
      · rintro (h | ⟨k', hk'⟩)
        · exact Or.inl h
        · exact Or.inr ⟨k', Or.inr hk'⟩
      · rintro (h | ⟨k', ⟨hnn, -⟩ | hk'⟩)
        · exact Or.inl h
        · exact absurd hnn.symm hn
        · exact Or.inr ⟨k', hk'⟩

/-- C14: starting from the empty store and evaluating any finite sequence of lines, the
binding of a name is the integer returned by the most recent successful assignment to
that name; the name is a key exactly when there was such an assignment; a successful
assignment to one name changes the binding of no other name; and `evaluate` never
removes a key. -/
theorem store_invariant :
    (∀ (lines : List Str) (name : Str),
        run_session lines Store.empty name
          = lastAssigned (assignmentLog lines Store.empty) name) ∧
      (∀ (lines : List Str) (name : Str),
        run_session lines Store.empty name ≠ none ↔
          ∃ k, (name, k) ∈ assignmentLog lines Store.empty) ∧
      (∀ (st : Store) (line : Str) (k : Int) (other : Str),
        regex_match line assignment = true → (evaluate line st).1 = .ok k →
        other ≠ beforeEq line → (evaluate line st).2 other = st other) ∧
      (∀ (st : Store) (line name : Str), st name ≠ none → (evaluate line st).2 name ≠ none) := by
  refine ⟨?_, ?_, ?_, ?_⟩
  · intro lines name
    exact run_session_eq_log name lines Store.empty
  · intro lines name
    rw [run_session_eq_log name lines Store.empty, foldl_last_ne_none]
    simp [Store.empty]
  · intro st line k other ha hk hne
    rw [evaluate_assignment_store line st k ha hk]
    simp [Store.insert_or_assign, hne]
  · intro st line name hkey
    rw [evaluate_store line st]
    split
    · simp only [Store.insert_or_assign]
      split
      · simp
      · exact hkey
    · exact hkey

theorem store_invariant_witness :
    run_session ["x=1".toList, "y=x+1".toList, "x=q".toList, "x=y+y".toList, "x".toList]
        Store.empty "x".toList = some 4 ∧
      (evaluate "x=y+y".toList
          ((Store.empty.insert_or_assign "x".toList 1).insert_or_assign "y".toList 2)).2
          "y".toList = some 2 := by
  refine ⟨?_, ?_⟩
  · have h := store_invariant.1
      ["x=1".toList, "y=x+1".toList, "x=q".toList, "x=y+y".toList, "x".toList] "x".toList
    rw [h]
    decide
  · exact store_invariant.2.2.1
      ((Store.empty.insert_or_assign "x".toList 1).insert_or_assign "y".toList 2)
      "x=y+y".toList 4 "y".toList (by decide) (by decide) (by decide)

/-! ## The keys of the store -/

theorem mem_spec_variable (w : Str) :
    w ∈ spec_variable.lang ↔
      ∃ (c : Char) (rest : Str), w = c :: rest ∧ isAlpha c = true ∧ ∀ d ∈ rest, isWord d = true := by
  rw [spec_variable, Regex.mem_seq]
  constructor
  · rintro ⟨a, b, ⟨c, hc, rfl⟩, hb, rfl⟩
    exact ⟨c, b, rfl, hc, (Regex.mem_star_cls isWord b).1 hb⟩
  · rintro ⟨c, rest, rfl, hc, hrest⟩
    exact ⟨[c], rest, ⟨c, hc, rfl⟩, (Regex.mem_star_cls isWord rest).2 hrest, rfl⟩

/-- The pattern of the code and the pattern of the specification accept the same names. -/
theorem variable_rx_eq_spec (s : Str) :
    regex_match s variable_rx = regex_match s spec_variable := by
  rw [Bool.eq_iff_iff, regex_match_iff, regex_match_iff, mem_spec_variable]
  exact mem_var_ s

theorem run_session_keys :
    ∀ (lines : List Str) (st : Store),
      (∀ n, st n ≠ none → regex_match n variable_rx = true) →
      ∀ n, run_session lines st n ≠ none → regex_match n variable_rx = true
  | [], _, hst, n, hn => hst n hn
  | line :: rest, st, hst, n, hn => by
    refine run_session_keys rest (evaluate line st).2 ?_ n hn
    intro m hm
    rw [evaluate_store line st] at hm
    split at hm
    · rename_i k ha _
      simp only [Store.insert_or_assign] at hm
      by_cases hmk : m = beforeEq line
      · rw [hmk]; exact assignment_beforeEq line ha
      · rw [if_neg hmk] at hm; exact hst m hm
    · exact hst m hm

/-- C18: starting from the empty store, after any finite sequence of `evaluate` calls
every key of the store matches the variable rule of the code, which accepts exactly the
strings of `[a-zA-Z][a-zA-Z0-9_]*`; a call of `evaluate` changes a binding only on a
line matching the assignment rule, and only that of the text before the first `=`. -/
theorem keys_are_variable_names :
    (∀ s : Str, regex_match s variable_rx = regex_match s spec_variable) ∧
      (∀ (lines : List Str) (name : Str), run_session lines Store.empty name ≠ none →
        regex_match name variable_rx = true ∧ regex_match name spec_variable = true) ∧
      (∀ (st : Store) (line name : Str), (evaluate line st).2 name ≠ st name →
        regex_match line assignment = true ∧ name = beforeEq line) := by
  refine ⟨variable_rx_eq_spec, ?_, ?_⟩
  · intro lines name h
    have hv := run_session_keys lines Store.empty (fun n hn => absurd rfl hn) name h
    exact ⟨hv, (variable_rx_eq_spec name) ▸ hv⟩
  · intro st line name h
    rw [evaluate_store line st] at h
    split at h
    · rename_i k ha _
      refine ⟨ha, ?_⟩
      by_contra hne
      exact h (by simp [Store.insert_or_assign, hne])
    · exact absurd rfl h

theorem keys_are_variable_names_witness :
    regex_match "ab_1".toList variable_rx = true ∧
      regex_match "ab_1".toList spec_variable = true :=
  keys_are_variable_names.2.1 ["ab_1=3".toList, "7=ab_1".toList, "c=ab_1=9".toList]
    "ab_1".toList (by decide)

/-! ## Chains and their tokens -/

theorem isAtom_iff_iv (t : Str) : isAtom t ↔ t ∈ iv.lang := by
  constructor
  · exact isAtom_iv t
  · intro h
    rcases (Regex.mem_alt _ _ t).1 h with h | h
    · exact Or.inl ((regex_match_iff t _).2 h)
    · exact Or.inr ((regex_match_iff t _).2 h)

/-- Groups `atom c` followed by a last atom are the atoms joined by `c`. -/
theorem groups_intercalate (r : Regex) (c : Char) (t : Str) (ht : t ∈ r.lang) :
    ∀ S : List Str, (∀ y ∈ S, y ∈ (Regex.seq r (Regex.chr c)).lang) →
      ∃ b rest, (∀ x ∈ b :: rest, x ∈ r.lang) ∧ S.flatten ++ t = List.intercalate [c] (b :: rest)
  | [], _ => ⟨t, [], by simpa using ht, by simp [List.intercalate]⟩
  | y :: S, h => by
    obtain ⟨b, rest, hall, e⟩ :=
      groups_intercalate r c t ht S (fun z hz => h z (List.mem_cons_of_mem _ hz))
    obtain ⟨a, d, ha, hd, rfl⟩ := (Regex.mem_seq _ _ y).1 (h y (List.mem_cons_self _ _))
    rw [(Regex.mem_chr c d).1 hd]
    refine ⟨a, b :: rest, ?_, ?_⟩
    · intro x hx
      rcases List.mem_cons.1 hx with rfl | hx
      · exact ha
      · exact hall x hx
    · rw [intercalate_cons_cons, ← e]; simp

/-- A line of a separator chain is two or more strings of the pattern joined by the
separator. -/
theorem sep_chain_atoms (r : Regex) (c : Char) (w : Str)
    (h : w ∈ (Regex.seq (Regex.plus (Regex.seq r (Regex.chr c))) r).lang) :
    ∃ a b rest, (∀ x ∈ a :: b :: rest, x ∈ r.lang) ∧
      w = List.intercalate [c] (a :: b :: rest) := by
  obtain ⟨u, t, hu, ht, rfl⟩ := (Regex.mem_seq _ _ w).1 h
  obtain ⟨x, y, hx, hy, rfl⟩ := (Regex.mem_seq _ _ u).1 hu
  obtain ⟨S, rfl, hS⟩ := (Regex.mem_star _ y).1 hy
  obtain ⟨b, rest, hall, e⟩ := groups_intercalate r c t ht S hS
  obtain ⟨a, d, ha, hd, rfl⟩ := (Regex.mem_seq _ _ x).1 hx
  rw [(Regex.mem_chr c d).1 hd]
  refine ⟨a, b, rest, ?_, ?_⟩
  · intro z hz
    rcases List.mem_cons.1 hz with rfl | hz
    · exact ha
    · exact hall z hz
  · rw [intercalate_cons_cons, ← e]; simp

/-- The tokens of a line of the addition rule are its atoms. -/
theorem addition_tokens (s : Str) (h : regex_match s addition = true) :
    2 ≤ (string_split s '+').length ∧ ∀ t ∈ string_split s '+', isAtom t := by
  obtain ⟨a, b, rest, hall, rfl⟩ := sep_chain_atoms iv '+' s ((regex_match_iff s _).1 h)
  rw [string_split_intercalate '+' a (b :: rest) (fun x hx => iv_no_plus x (hall x hx))]
  exact ⟨by simp, fun t ht => (isAtom_iff_iv t).2 (hall t ht)⟩

/-- The error of an atom is never a syntax error. -/
theorem eval_int_var_atom_error (t : Str) (st : Store) (e : Exn) (ht : isAtom t)
    (he : (eval_int_var t st).1 = .error e) : isSyntaxError e = false := by
  rcases ht with hi | hv
  · rw [eval_int_var, if_pos hi, stoi_literal t hi] at he
    simp only at he
    split at he
    · cases he
    · cases he; rfl
  · rw [eval_int_var, not_integer_of_variable t hv, if_neg (by simp), if_pos hv,
      get_integer] at he
    split at he
    · cases he; rfl
    · cases he

/-- An error of the token loop is the error of one of the tokens. -/
theorem eval_tokens_error :
    ∀ (toks : List Str) (vi : List Int) (st : Store) (e : Exn),
      (eval_tokens toks vi st).1 = .error e → ∃ t ∈ toks, (eval_int_var t st).1 = .error e
  | [], _, _, _, h => by cases h
  | t :: toks, vi, st, e, h => by
    have hs := eval_int_var_store t st
    rw [eval_tokens] at h
    split at h
    · rename_i x st1 heq
      rw [heq] at hs
      simp only at hs
      subst hs
      obtain ⟨t', ht', he'⟩ := eval_tokens_error toks _ _ e h
      exact ⟨t', List.mem_cons_of_mem _ ht', he'⟩
    · rename_i e' st1 heq
      simp only at h
      cases h
      exact ⟨t, List.mem_cons_self _ _, by rw [heq]⟩

theorem integer_addition_error (s : Str) (st : Store) (e : Exn)
    (h : (integer_addition s st).1 = .error e) :
    (eval_tokens (string_split s '+') [] st).1 = .error e := by
  rw [integer_addition] at h
  split at h
  · cases h
  · rename_i e' st1 heq
    simp only at h
    cases h
    rw [heq]

/-- C15: a string matches the addition rule if and only if it contains a `+` and every
token of `string_split` on `+` is an integer literal or a variable name; hence on a
line of the addition rule `integer_addition` has at least two tokens and never throws
a syntax error. -/
theorem addition_iff_split (s : Str) :
    (regex_match s addition = true ↔
        '+' ∈ s ∧ ∀ t ∈ string_split s '+',
          regex_match t integer = true ∨ regex_match t variable_rx = true) ∧
      (regex_match s addition = true →
        2 ≤ (string_split s '+').length ∧
          ∀ (st : Store) (e : Exn), (integer_addition s st).1 = .error e →
            isSyntaxError e = false) := by
  refine ⟨⟨fun h => ⟨addition_has_plus s h, (addition_tokens s h).2⟩, ?_⟩, ?_⟩
  · rintro ⟨hplus, hall⟩
    obtain ⟨hlen, -, hjoin⟩ := string_split_props '+' s.length s (le_refl _)
    have hcount : 0 < s.count '+' := List.count_pos_iff.2 hplus
    match hT : string_split s '+', hlen, hall, hjoin with
    | [], hlen, _, _ => simp at hlen
    | [_], hlen, _, _ => simp at hlen; omega
    | a :: b :: rest, _, hall, hjoin =>
      obtain ⟨u, t, e, hu, ht⟩ := intercalate_mem_sep iv '+' a b rest
        (fun x hx => isAtom_iv x (hall x hx))
      rw [regex_match_iff, ← hjoin, e]
      exact (Regex.mem_seq _ _ _).2 ⟨u, t, hu, ht, rfl⟩
  · intro h
    obtain ⟨hlen, hall⟩ := addition_tokens s h
    refine ⟨hlen, ?_⟩
    intro st e he
    obtain ⟨t, ht, hte⟩ := eval_tokens_error _ _ st e (integer_addition_error s st e he)
    exact eval_int_var_atom_error t st e (hall t ht) hte

theorem addition_iff_split_witness :
    2 ≤ (string_split "a+-7+b2".toList '+').length ∧
      ∀ (st : Store) (e : Exn), (integer_addition "a+-7+b2".toList st).1 = .error e →
        isSyntaxError e = false :=
  (addition_iff_split "a+-7+b2".toList).2 (by decide)

/-! ## Fail-fast evaluation of the tokens -/

theorem eval_tokens_fail_fast (st : Store) (t : Str) (post : List Str) (e : Exn)
    (ht : (eval_int_var t st).1 = .error e) :
    ∀ (pre : List Str) (vi : List Int),
      (∀ p ∈ pre, ∃ v, (eval_int_var p st).1 = .ok v) →
      eval_tokens (pre ++ t :: post) vi st = (.error e, st)
  | [], vi, _ => by
    have h : eval_int_var t st = (.error e, st) := Prod.ext ht (eval_int_var_store t st)
    rw [List.nil_append, eval_tokens, h]
  | p :: pre, vi, hpre => by
    obtain ⟨v, hv⟩ := hpre p (List.mem_cons_self _ _)
    have h : eval_int_var p st = (.ok v, st) := Prod.ext hv (eval_int_var_store p st)
    rw [List.cons_append, eval_tokens, h]
    exact eval_tokens_fail_fast st t post e ht pre _
      (fun q hq => hpre q (List.mem_cons_of_mem _ hq))

/-- C16: for every store and every line of the addition rule or of the subtraction
rule, if a token of the line fails in `eval_int_var` and every token before it
succeeds, `evaluate` throws the error of that token, the leftmost failing one, and
returns no value; the store is unchanged. -/
theorem chain_fail_fast (st : Store) (line : Str) (pre : List Str) (t : Str)
    (post : List Str) (e : Exn)
    (hline : (regex_match line addition = true ∧ string_split line '+' = pre ++ t :: post) ∨
      (regex_match line subtraction = true ∧ string_split line '-' = pre ++ t :: post))
    (hpre : ∀ p ∈ pre, ∃ v, (eval_int_var p st).1 = .ok v)
    (ht : (eval_int_var t st).1 = .error e) :
    evaluate line st = (.error e, st) := by
  obtain ⟨p1, p2, p3, p4, p5, p6, p7, p8, p9, p10⟩ := rules_pairwise line
  have hrun := eval_tokens_fail_fast st t post e ht pre [] hpre
  rcases hline with ⟨hadd, hsplit⟩ | ⟨hsub, hsplit⟩
  · have h1 : regex_match line integer = false := by
      by_contra hc; exact p3 ⟨by simpa using hc, hadd⟩
    have h2 : regex_match line variable_rx = false := by
      by_contra hc; exact p6 ⟨by simpa using hc, hadd⟩
    have h3 : regex_match line assignment = false := by
      by_contra hc; exact p8 ⟨by simpa using hc, hadd⟩
    rw [evaluate, h1, h2, h3, if_neg (by simp), if_neg (by simp), if_neg (by simp),
      if_pos hadd, integer_addition, hsplit, hrun]
  · have h1 : regex_match line integer = false := by
      by_contra hc; exact p4 ⟨by simpa using hc, hsub⟩
    have h2 : regex_match line variable_rx = false := by
      by_contra hc; exact p7 ⟨by simpa using hc, hsub⟩
    have h3 : regex_match line assignment = false := by
      by_contra hc; exact p9 ⟨by simpa using hc, hsub⟩
    have h4 : regex_match line addition = false := by
      by_contra hc; exact p10 ⟨by simpa using hc, hsub⟩
    rw [evaluate, h1, h2, h3, h4, if_neg (by simp), if_neg (by simp), if_neg (by simp),
      if_neg (by simp), if_pos hsub, integer_subtraction, hsplit, hrun]

theorem chain_fail_fast_witness :
    evaluate "x+a+b".toList (Store.empty.insert_or_assign "x".toList 1)
      = (.error (.str "error: a is undefined".toList),
          Store.empty.insert_or_assign "x".toList 1) :=
  chain_fail_fast (Store.empty.insert_or_assign "x".toList 1) "x+a+b".toList
    ["x".toList] "a".toList ["b".toList] (.str "error: a is undefined".toList)
    (Or.inl ⟨by decide, by decide⟩)
    (fun p hp => ⟨1, by rw [List.mem_singleton.1 hp]; decide⟩) (by decide)

/-! ## `evaluate` and `eval_no_assign` -/

/-- The errors of `eval_int_var`: an undefined variable, a syntax error, or the
`out_of_range` of `std::stoi`. -/
theorem eval_int_var_error_kinds (t : Str) (st : Store) (e : Exn)
    (he : (eval_int_var t st).1 = .error e) :
    isUndefinedVariable e ∨ isSyntaxError e = true ∨ e = .out_of_range := by
  by_cases hi : regex_match t integer = true
  · rw [eval_int_var, if_pos hi, stoi_literal t hi] at he
    simp only at he
    split at he
    · cases he
    · cases he; exact Or.inr (Or.inr rfl)
  · by_cases hv : regex_match t variable_rx = true
    · rw [eval_int_var, if_neg hi, if_pos hv, get_integer] at he
      split at he
      · cases he; exact Or.inl ⟨t, rfl⟩
      · cases he
    · rw [eval_int_var, if_neg hi, if_neg hv] at he
      cases he
      exact Or.inr (Or.inl (by decide))

theorem integer_subtraction_error (s : Str) (st : Store) (e : Exn)
    (h : (integer_subtraction s st).1 = .error e) :
    (eval_tokens (string_split s '-') [] st).1 = .error e := by
  rw [integer_subtraction] at h
  split at h
  · cases h
  · rename_i e' st1 heq
    simp only at h
    cases h
    rw [heq]

theorem eval_no_assign_error_kinds (r : Str) (st : Store) (e : Exn)
    (he : (eval_no_assign r st).1 = .error e) :
    isUndefinedVariable e ∨ isSyntaxError e = true ∨ e = .out_of_range := by
  by_cases hi : regex_match r integer = true
  · rw [eval_no_assign, if_pos hi, stoi_literal r hi] at he
    simp only at he
    split at he
    · cases he
    · cases he; exact Or.inr (Or.inr rfl)
  by_cases hv : regex_match r variable_rx = true
  · rw [eval_no_assign, if_neg hi, if_pos hv, get_integer] at he
    split at he
    · cases he; exact Or.inl ⟨r, rfl⟩
    · cases he
  by_cases ha : regex_match r addition = true
  · rw [eval_no_assign, if_neg hi, if_neg hv, if_pos ha] at he
    obtain ⟨t, -, hte⟩ := eval_tokens_error _ _ st e (integer_addition_error r st e he)
    exact eval_int_var_error_kinds t st e hte
  by_cases hs : regex_match r subtraction = true
  · rw [eval_no_assign, if_neg hi, if_neg hv, if_neg ha, if_pos hs] at he
    obtain ⟨t, -, hte⟩ := eval_tokens_error _ _ st e (integer_subtraction_error r st e he)
    exact eval_int_var_error_kinds t st e hte
  · rw [eval_no_assign, if_neg hi, if_neg hv, if_neg ha, if_neg hs] at he
    cases he
    exact Or.inr (Or.inl (by decide))

/-- Off the assignment rule the two evaluators run the same branch, or both fall
through to their own syntax error. -/
theorem evaluate_eq_or_fall_through (line : Str) (st : Store)
    (hna : regex_match line assignment = false) :
    evaluate line st = eval_no_assign line st ∨
      (evaluate line st = (.error (.str "syntax error".toList), st) ∧
        eval_no_assign line st = (.error (.str "syntax error from eval_no_assign".toList), st)) := by
  by_cases hi : regex_match line integer = true
  · left; rw [evaluate, eval_no_assign, if_pos hi, if_pos hi]
  by_cases hv : regex_match line variable_rx = true
  · left; rw [evaluate, eval_no_assign, if_neg hi, if_neg hi, if_pos hv, if_pos hv]
  by_cases ha : regex_match line addition = true
  · left
    rw [evaluate, eval_no_assign, if_neg hi, if_neg hi, if_neg hv, if_neg hv, hna,
      if_neg (by simp), if_pos ha, if_pos ha]
  by_cases hs : regex_match line subtraction = true
  · left
    rw [evaluate, eval_no_assign, if_neg hi, if_neg hi, if_neg hv, if_neg hv, hna,
      if_neg (by simp), if_neg ha, if_neg ha, if_pos hs, if_pos hs]
  · right
    constructor
    · rw [evaluate, if_neg hi, if_neg hv, hna, if_neg (by simp), if_neg ha, if_neg hs]
    · rw [eval_no_assign, if_neg hi, if_neg hv, if_neg ha, if_neg hs]

/-- C17 (as stated, refuted): the line `2147483648` does not match the assignment rule,
and both evaluators throw the `out_of_range` of `std::stoi` on it, which is neither an
integer, nor an undefined-variable error, nor a syntax error. -/
theorem evaluators_out_of_range_counterexample :
    regex_match "2147483648".toList assignment = false ∧
      (evaluate "2147483648".toList Store.empty).1 = .error .out_of_range ∧
      (eval_no_assign "2147483648".toList Store.empty).1 = .error .out_of_range ∧
      ¬ agree (evaluate "2147483648".toList Store.empty).1
          (eval_no_assign "2147483648".toList Store.empty).1 := by
  have h1 : (evaluate "2147483648".toList Store.empty).1 = .error .out_of_range := by decide
  have h2 : (eval_no_assign "2147483648".toList Store.empty).1 = .error .out_of_range := by
    decide
  refine ⟨by decide, h1, h2, ?_⟩
  rw [h1, h2]
  rintro (⟨k, hk, -⟩ | ⟨e, ⟨v, hv⟩, he, -⟩ | ⟨e1, e2, he1, -, hs, -⟩)
  · cases hk
  · rw [hv] at he; cases he
  · cases he1
    revert hs
    decide

/-- C17 (amended): for every store and every line that does not match the assignment
rule, `evaluate` and `eval_no_assign` leave the store unchanged and give the same
integer, or the same undefined-variable error, or both a syntax error, or both the
`out_of_range` of `std::stoi`; their outcomes are equal except when the line matches no
rule, where the messages are `syntax error` and `syntax error from eval_no_assign`. -/
theorem evaluators_agree (st : Store) (line : Str)
    (hna : regex_match line assignment = false) :
    (evaluate line st).2 = st ∧ (eval_no_assign line st).2 = st ∧
      (agree (evaluate line st).1 (eval_no_assign line st).1 ∨
        ((evaluate line st).1 = .error .out_of_range ∧
          (eval_no_assign line st).1 = .error .out_of_range)) ∧
      (evaluate line st = eval_no_assign line st ∨
        (evaluate line st = (.error (.str "syntax error".toList), st) ∧
          eval_no_assign line st
            = (.error (.str "syntax error from eval_no_assign".toList), st))) := by
  have hor := evaluate_eq_or_fall_through line st hna
  refine ⟨evaluate_not_assignment_store line st hna, eval_no_assign_store line st, ?_, hor⟩
  rcases hor with heq | ⟨h1, h2⟩
  · rw [heq]
    cases hr : (eval_no_assign line st).1 with
    | ok k => exact Or.inl (Or.inl ⟨k, rfl, rfl⟩)
    | error e =>
      rcases eval_no_assign_error_kinds line st e hr with hu | hs | ho
      · exact Or.inl (Or.inr (Or.inl ⟨e, hu, rfl, rfl⟩))
      · exact Or.inl (Or.inr (Or.inr ⟨e, e, rfl, rfl, hs, hs⟩))
      · subst ho; exact Or.inr ⟨rfl, rfl⟩
  · rw [h1, h2]
    exact Or.inl (Or.inr (Or.inr ⟨_, _, rfl, rfl, by decide, by decide⟩))

theorem evaluators_agree_witness :
    evaluate "7-q".toList Store.empty = eval_no_assign "7-q".toList Store.empty ∨
      (evaluate "7-q".toList Store.empty = (.error (.str "syntax error".toList), Store.empty) ∧
        eval_no_assign "7-q".toList Store.empty
          = (.error (.str "syntax error from eval_no_assign".toList), Store.empty)) :=
  (evaluators_agree Store.empty "7-q".toList (by decide)).2.2.2

end MathInterpreter
